import Mathlib

/-!
Verification of the ignis build-stage orchestration core.

This file shallowly embeds the orchestration engine of the repository:

* `src/core/src/stage.rs` — the `Stage` enum, its metadata and default
  dependencies;
* `src/core/src/dependency_graph.rs` — `StageDependencyGraph` with
  `from_stages` and the Kahn-style layered `topological_sort`;
* `src/core/src/stage_runner.rs` — `execute_stage`,
  `execute_stages_concurrent` and `execute_with_dependencies`;
* `src/core/src/executor.rs` — `execute_steps` and the metric data types;
* `src/core/src/parser/parser.rs` — `MetricParser::parse_metric_line`.

Modelling conventions:

* Rust `HashMap`/`HashSet` fields become total functions with the map's
  default (`[]` / `0` / `none`) for absent keys, plus an explicit list of
  registered keys where the code iterates over the map; iteration order of a
  `HashMap` is arbitrary in Rust, so the embedding fixes the deterministic
  insertion order (a refinement; all verified properties are order-invariant).
* The `tokio` process spawns and channel sends are effects outside the pure
  core; they are modelled by oracles in an `Env` record (the step generator,
  the per-step execution outcome, the program execution outcome) and by ghost
  instrumentation in the runner state (`genCalls`, `spawned`) that records
  which stages asked the generator for steps and how many processes were
  spawned.  Infrastructure failures (spawn errors, channel errors, task join
  errors) abort the Rust functions through `anyhow`; the model covers the
  runs that complete without such failures, which is what the verified claims
  quantify over.
* Durations (`f64` seconds from `Instant`) are abstract: an `elapsed` oracle
  supplies them, and the literal `0.0` written in the source becomes `0`.
* Rust `&str` values handled character-wise by the metric parser are embedded
  as `List Char`; `String.split(sep)` becomes `splitOnChar`.
-/

/-! ## Stage model (`src/core/src/stage.rs`) -/

inductive Stage where
  | PreValidation
  | Configure
  | Build
  | Install
  | Clean
  | PostBuild
  | Test
  | Exec
deriving DecidableEq, Repr, Fintype

structure StageMetadata where
  description : String
  can_run_concurrent : Bool
  is_optional : Bool
deriving DecidableEq, Repr

def Stage.metadata : Stage → StageMetadata
  | Stage.PreValidation => ⟨"Pre-validation checks", false, true⟩
  | Stage.Configure => ⟨"CMake configuration", false, false⟩
  | Stage.Build => ⟨"Building project", false, false⟩
  | Stage.Install => ⟨"Installing artifacts", true, false⟩
  | Stage.Clean => ⟨"Cleaning build artifacts", false, false⟩
  | Stage.PostBuild => ⟨"Post-build processing", true, true⟩
  | Stage.Test => ⟨"Running tests", true, true⟩
  | Stage.Exec => ⟨"Executing program", false, false⟩

def Stage.default_dependencies : Stage → List Stage
  | Stage.PreValidation => []
  | Stage.Configure => [Stage.PreValidation]
  | Stage.Build => [Stage.Configure]
  | Stage.Install => [Stage.Build]
  | Stage.PostBuild => [Stage.Build]
  | Stage.Test => [Stage.Build]
  | Stage.Exec => [Stage.Build, Stage.Install]
  | Stage.Clean => []

def Stage.all : List Stage :=
  [Stage.PreValidation, Stage.Configure, Stage.Build, Stage.Install,
   Stage.Clean, Stage.PostBuild, Stage.Test, Stage.Exec]

/-- Rank function used only in proofs: every default dependency edge strictly
increases it, witnessing that the built-in dependency relation is acyclic. -/
def Stage.rank : Stage → Nat
  | Stage.PreValidation => 0
  | Stage.Clean => 0
  | Stage.Configure => 1
  | Stage.Build => 2
  | Stage.Install => 3
  | Stage.PostBuild => 3
  | Stage.Test => 3
  | Stage.Exec => 4

/-! ## Dependency graph (`src/core/src/dependency_graph.rs`) -/

inductive GraphError where
  | CircularDependency (cycle : List Stage)
  | StageNotFound (stage : Stage)
deriving DecidableEq, Repr

/-- `StageDependencyGraph`.  `adjacency` and `in_degree` are the two hash
maps, embedded as total functions whose value on an unregistered stage is the
map default (`[]` / `0`); `stages` is the registered-stage set, as a list in
insertion order. -/
structure StageDependencyGraph where
  adjacency : Stage → List Stage
  in_degree : Stage → Nat
  stages : List Stage

namespace StageDependencyGraph

/-- `StageDependencyGraph::new`. -/
def new : StageDependencyGraph :=
  { adjacency := fun _ => [], in_degree := fun _ => 0, stages := [] }

/-- `add_stage`: idempotent registration; the `or_insert` entries are
already the defaults in the total-function model. -/
def add_stage (g : StageDependencyGraph) (s : Stage) : StageDependencyGraph :=
  { g with stages := if s ∈ g.stages then g.stages else g.stages ++ [s] }

/-- `add_dependency from to`: registers both stages, appends `to` to
`from`'s adjacency list and increments `to`'s in-degree. -/
def add_dependency (g : StageDependencyGraph) (f t : Stage) : StageDependencyGraph :=
  let g := (g.add_stage f).add_stage t
  { g with
    adjacency := fun x => if x = f then g.adjacency f ++ [t] else g.adjacency x
    in_degree := fun x => if x = t then g.in_degree t + 1 else g.in_degree x }

/-- `from_stages`: registers every requested stage, then wires each stage's
default dependencies, keeping only edges whose source is also requested. -/
def from_stages (stages : List Stage) : StageDependencyGraph :=
  let g := stages.foldl add_stage new
  stages.foldl
    (fun g stage =>
      stage.default_dependencies.foldl
        (fun g dep => if dep ∈ stages then g.add_dependency dep stage else g) g)
    g

/-- The inner loop of `topological_sort`: for one popped stage, walk its
`dependents` list, decrement each dependent's in-degree and push the ones
that reach zero onto the back of the queue. -/
def decrementDependents (deg : Stage → Nat) (newQ : List Stage) :
    List Stage → (Stage → Nat) × List Stage
  | [] => (deg, newQ)
  | t :: rest =>
    let d := deg t - 1
    decrementDependents (fun x => if x = t then d else deg x)
      (if d = 0 then newQ ++ [t] else newQ) rest

/-- The per-layer loop of `topological_sort`: pop `current_layer_size`
stages (the whole current queue) and process each one's dependents; the
stages pushed meanwhile form the next queue. -/
def processQueue (adj : Stage → List Stage) (deg : Stage → Nat) (newQ : List Stage) :
    List Stage → (Stage → Nat) × List Stage
  | [] => (deg, newQ)
  | s :: rest =>
    let p := decrementDependents deg newQ (adj s)
    processQueue adj p.1 p.2 rest

/-- The `while !queue.is_empty()` loop of `topological_sort`, fuelled.  It
returns the collected layers, the `processed` counter and the final
in-degree map.  For any graph built through `add_stage`/`add_dependency` the
fuel `stages.length + 1` used below is never exhausted (each non-empty
iteration processes at least one never-before-processed registered stage),
so the fuelled loop agrees with Rust's unbounded loop. -/
def kahnLoop (adj : Stage → List Stage) :
    Nat → (Stage → Nat) → List Stage → List (List Stage) × Nat × (Stage → Nat)
  | 0, deg, _ => ([], 0, deg)
  | fuel + 1, deg, queue =>
    if queue.isEmpty then ([], 0, deg)
    else
      let p := processQueue adj deg [] queue
      let r := kahnLoop adj fuel p.1 p.2
      (queue :: r.1, queue.length + r.2.1, r.2.2)

/-- One run of Kahn's algorithm on a graph: the initial queue is every
registered stage of in-degree zero (the `for (stage, &degree) in &in_degree`
seed loop; the in-degree map's key set is exactly `stages`). -/
def kahnRun (g : StageDependencyGraph) : List (List Stage) × Nat × (Stage → Nat) :=
  kahnLoop g.adjacency (g.stages.length + 1) g.in_degree
    (g.stages.filter (fun s => g.in_degree s = 0))

/-- `topological_sort`: succeeds with the layers when every registered stage
was processed; otherwise fails with `CircularDependency` carrying every
registered stage whose in-degree stayed positive. -/
def topological_sort (g : StageDependencyGraph) : Except GraphError (List (List Stage)) :=
  if (kahnRun g).2.1 = g.stages.length then Except.ok (kahnRun g).1
  else Except.error (GraphError.CircularDependency
    (g.stages.filter (fun s => 0 < (kahnRun g).2.2 s)))

end StageDependencyGraph

/-- Well-formedness of a graph value: exactly the states reachable through
`new`/`add_stage`/`add_dependency`/`from_stages` — the registered list is
duplicate-free, adjacency lists live on registered stages and point at
registered stages, and every in-degree equals the number of edge instances
into that stage. -/
def WFGraph (g : StageDependencyGraph) : Prop :=
  g.stages.Nodup ∧
  (∀ s : Stage, s ∉ g.stages → g.adjacency s = []) ∧
  (∀ s t : Stage, t ∈ g.adjacency s → t ∈ g.stages) ∧
  (∀ t : Stage, g.in_degree t = (g.stages.flatMap g.adjacency).count t)

instance (g : StageDependencyGraph) : Decidable (WFGraph g) := by
  unfold WFGraph; infer_instance

/-! ## Execution engine data (`src/core/src/executor.rs`) -/

/-- `ExecutionResult`; durations are abstracted to `Nat`. -/
structure ExecutionResult where
  success : Bool
  duration : Nat
  stdout : List String
  stderr : List String
  exit_code : Option Int
  failure_reason : Option String
deriving DecidableEq, Repr

/-- `BuildStep` (`src/core/src/builder.rs`). -/
structure BuildStep where
  description : String
  commands : List String
deriving DecidableEq, Repr

inductive MetricVisualization where
  | Sparkline
  | Gauge
  | Table
  | Chart
  | Bar
  | Text
  | Auto
deriving DecidableEq, Repr

/-- `MetricVisualization::from_str`: case-insensitive match against the
seven visualization names.  Strings are embedded as `List Char`. -/
def MetricVisualization.fromStr (s : List Char) : Option MetricVisualization :=
  let l := s.map Char.toLower
  if l = "sparkline".toList then some MetricVisualization.Sparkline
  else if l = "gauge".toList then some MetricVisualization.Gauge
  else if l = "table".toList then some MetricVisualization.Table
  else if l = "chart".toList then some MetricVisualization.Chart
  else if l = "bar".toList then some MetricVisualization.Bar
  else if l = "text".toList then some MetricVisualization.Text
  else if l = "auto".toList then some MetricVisualization.Auto
  else none

/-- `RuntimeMetric`; the `timestamp: Instant` field (wall-clock time of the
parse) is outside the pure model and omitted. -/
structure RuntimeMetric where
  key : List Char
  value : List Char
  category : List Char
  explicit_visualization : Option MetricVisualization
deriving DecidableEq, Repr

/-- `execute_steps` together with ghost instrumentation: the first component
is the accumulated `results` vector, the second the list of steps actually
handed to `execute_step` (i.e. the processes actually spawned).  `ex` is the
oracle giving the `ExecutionResult` each spawned step would produce.  The
loop stops after the first result with `success == false`. -/
def execute_steps_impl (ex : BuildStep → ExecutionResult) :
    List BuildStep → List ExecutionResult × List BuildStep
  | [] => ([], [])
  | step :: rest =>
    let r := ex step
    if r.success then
      let p := execute_steps_impl ex rest
      (r :: p.1, step :: p.2)
    else ([r], [step])

/-- The result list returned by `execute_steps`. -/
def execute_steps (ex : BuildStep → ExecutionResult) (steps : List BuildStep) :
    List ExecutionResult :=
  (execute_steps_impl ex steps).1

/-! ## Metric line parsing (`src/core/src/parser/parser.rs`) -/

/-- Rust `str::split(c)`: splits on every occurrence of `c`; the empty
string yields `[""]`, and `n` separators yield `n + 1` segments. -/
def splitOnChar (c : Char) : List Char → List (List Char)
  | [] => [[]]
  | x :: xs =>
    let r := splitOnChar c xs
    if x = c then [] :: r
    else
      match r with
      | y :: ys => (x :: y) :: ys
      | [] => [[x]]

def metricMarker : List Char := "[IGNIS_METRIC] ".toList

/-- `MetricParser::parse_metric_line`.  `line.strip_prefix("[IGNIS_METRIC] ")`
becomes the `take`/`drop` pair; `parts.len() >= 2` and `kv.len() == 2` become
the pattern matches.  Note that `kvRest` is a segment of `parts[1]`, which
contains no `':'`, so `vizRest` is always empty and
`explicit_visualization` is always `none` — exactly as in the source. -/
def parse_metric_line (line : List Char) : Option RuntimeMetric :=
  if line.take metricMarker.length = metricMarker then
    let metric_str := line.drop metricMarker.length
    match splitOnChar ':' metric_str with
    | category :: part1 :: _ =>
      match splitOnChar '=' part1 with
      | [key, kvRest] =>
        match splitOnChar ':' kvRest with
        | value :: vizRest =>
          let explicit_visualization :=
            match vizRest with
            | viz :: _ => MetricVisualization.fromStr viz
            | [] => none
          some { key := key, value := value, category := category,
                 explicit_visualization := explicit_visualization }
        | [] => none
      | _ => none
    | _ => none
  else none

/-- One stdout line of `execute_program`: a matching line becomes a typed
`Metric` event; any other line becomes an Info-level log entry carrying the
current stdout index, which is then incremented. -/
inductive StdoutAction where
  | metric (m : RuntimeMetric)
  | log (line : List Char) (idx : Nat)
deriving DecidableEq, Repr

def processStdoutLine (line : List Char) (idx : Nat) : StdoutAction × Nat :=
  match parse_metric_line line with
  | some m => (StdoutAction.metric m, idx)
  | none => (StdoutAction.log line idx, idx + 1)

/-! ## Stage runner (`src/core/src/stage_runner.rs`) -/

/-- `StageResult`; durations abstracted to `Nat`. -/
inductive StageResult where
  | Success (duration : Nat) (steps_executed : Nat)
  | Failed (error : String) (duration : Nat) (steps_executed : Nat)
  | Skipped (reason : String)
deriving DecidableEq, Repr

inductive StageStatus where
  | Pending
  | Running
  | Completed
  | Failed
  | Skipped
deriving DecidableEq, Repr

/-- `ExecutableInfo` (`src/core/src/builder.rs`); paths become strings. -/
structure ExecutableInfo where
  path : String
  name : String
  project_dir : String
  build_dir : String
  install_dir : String
deriving DecidableEq, Repr

/-- The external collaborators of one `StageRunner` run, as oracles:
`gen` is `context.generate_steps_for_stage`, `ex` the outcome each spawned
build step would produce, `execProgram` the outcome `execute_program` would
produce for the Exec stage, `execInfo` is `context.executable_info()`, and
`elapsed` the wall-clock duration `start.elapsed()` observes for a stage. -/
structure Env where
  gen : Stage → List BuildStep
  ex : BuildStep → ExecutionResult
  execProgram : ExecutionResult
  execInfo : Option ExecutableInfo
  elapsed : Stage → Nat

/-- The runner's shared mutable state: the `results` and `statuses` maps,
plus ghost instrumentation recording every stage for which the step
generator was invoked and how many processes were spawned. -/
structure RunnerState where
  results : Stage → Option StageResult
  statuses : Stage → Option StageStatus
  genCalls : List Stage
  spawned : Nat

/-- The state of a fresh `StageRunner::new`. -/
def initialState : RunnerState :=
  { results := fun _ => none, statuses := fun _ => none, genCalls := [], spawned := 0 }

def setResult (st : RunnerState) (s : Stage) (r : StageResult) : RunnerState :=
  { st with results := fun x => if x = s then some r else st.results x }

def setStatus (st : RunnerState) (s : Stage) (v : StageStatus) : RunnerState :=
  { st with statuses := fun x => if x = s then some v else st.statuses x }

/-- The failure reason attached to a failed stage: the first non-success
step result's reason, or the fallback text. -/
def firstFailureReason (rs : List ExecutionResult) : String :=
  (((rs.find? (fun r => !r.success)).bind (fun r => r.failure_reason)).getD
    "Stage execution failed")

/-- `StageRunner::execute_stage`.  Sets status Running; special-cases Exec
(which consults `executable_info` and never asks the step generator);
otherwise asks the generator, maps an empty step list to
`Skipped("No steps to execute")`, and runs the steps through
`execute_steps`, deriving Success/Failed from the accumulated results. -/
def execute_stage (env : Env) (st : RunnerState) (stage : Stage) :
    RunnerState × StageResult :=
  let st := setStatus st stage StageStatus.Running
  if stage = Stage.Exec then
    match env.execInfo with
    | some _ =>
      let r := env.execProgram
      let st := { st with spawned := st.spawned + 1 }
      let sr :=
        if r.success then StageResult.Success r.duration 1
        else StageResult.Failed (r.failure_reason.getD "Execution failed") r.duration 1
      let st := setResult st stage sr
      let st := setStatus st stage
        (if r.success then StageStatus.Completed else StageStatus.Failed)
      (st, sr)
    | none =>
      let sr := StageResult.Failed "Exec stage requires executable info" 0 0
      (setStatus (setResult st stage sr) stage StageStatus.Failed, sr)
  else
    let steps := env.gen stage
    let st := { st with genCalls := st.genCalls ++ [stage] }
    if steps.isEmpty then
      let sr := StageResult.Skipped "No steps to execute"
      (setStatus (setResult st stage sr) stage StageStatus.Skipped, sr)
    else
      let p := execute_steps_impl env.ex steps
      let st := { st with spawned := st.spawned + p.2.length }
      let steps_executed := p.1.length
      let success := p.1.all (fun r => r.success)
      let sr :=
        if success then StageResult.Success (env.elapsed stage) steps_executed
        else StageResult.Failed (firstFailureReason p.1) (env.elapsed stage) steps_executed
      (setStatus (setResult st stage sr) stage
        (if success then StageStatus.Completed else StageStatus.Failed), sr)

/-- `results.values().any(|r| matches!(r, Failed))`: the map's key set is a
subset of the eight stage variants, so the scan ranges over `Stage.all`. -/
def anyFailedResults (st : RunnerState) : Bool :=
  Stage.all.any fun s =>
    match st.results s with
    | some (StageResult.Failed _ _ _) => true
    | _ => false

/-- The fail-fast branch of `execute_with_dependencies`: mark every stage of
the layer Skipped("Previous stage failed") in the runner maps and in
`all_results`. -/
def markLayerSkipped (st : RunnerState) (acc : Stage → Option StageResult) :
    List Stage → RunnerState × (Stage → Option StageResult)
  | [] => (st, acc)
  | s :: rest =>
    let skip := StageResult.Skipped "Previous stage failed"
    markLayerSkipped (setStatus (setResult st s skip) s StageStatus.Skipped)
      (fun x => if x = s then some skip else acc x) rest

/-- `execute_stages_concurrent`, sequentialised: every stage of the layer is
executed (no mid-layer fail-fast) and its result merged into `all_results`.
The Rust tasks write disjoint keys of the shared maps, so the join-order
interleaving does not affect the final maps. -/
def execConcurrent (env : Env) (st : RunnerState) (acc : Stage → Option StageResult) :
    List Stage → RunnerState × (Stage → Option StageResult)
  | [] => (st, acc)
  | s :: rest =>
    let p := execute_stage env st s
    execConcurrent env p.1 (fun x => if x = s then some p.2 else acc x) rest

/-- The sequential branch of a layer: execute stages in order, and `break`
after the first stage whose just-inserted result is Failed.  The third
component is ghost instrumentation: the suffix of the layer abandoned by the
`break` (those stages are never executed and never receive a result). -/
def runSeq (env : Env) (st : RunnerState) (acc : Stage → Option StageResult) :
    List Stage → RunnerState × (Stage → Option StageResult) × List Stage
  | [] => (st, acc, [])
  | s :: rest =>
    let p := execute_stage env st s
    let acc := fun x => if x = s then some p.2 else acc x
    match p.2 with
    | StageResult.Failed _ _ _ => (p.1, acc, rest)
    | _ => runSeq env p.1 acc rest

/-- The layer loop of `execute_with_dependencies`: before each layer check
whether any recorded result is Failed (→ skip-mark the layer); otherwise run
the layer concurrently when every member declares concurrency-eligibility
and the layer has more than one member, else sequentially.  The third
component accumulates the ghost abandoned-suffix lists of `runSeq`. -/
def execLayers (env : Env) (st : RunnerState) (acc : Stage → Option StageResult) :
    List (List Stage) → RunnerState × (Stage → Option StageResult) × List Stage
  | [] => (st, acc, [])
  | layer :: rest =>
    if anyFailedResults st then
      let p := markLayerSkipped st acc layer
      execLayers env p.1 p.2 rest
    else if (layer.all fun s => s.metadata.can_run_concurrent) ∧ 1 < layer.length then
      let p := execConcurrent env st acc layer
      execLayers env p.1 p.2 rest
    else
      let p := runSeq env st acc layer
      let q := execLayers env p.1 p.2.1 rest
      (q.1, q.2.1, p.2.2 ++ q.2.2)

/-- `StageRunner::execute_with_dependencies`: build the graph from the
requested stages, topologically sort it, then walk the layers.  Returns the
final runner state, the `all_results` map and the ghost abandoned list. -/
def execute_with_dependencies (env : Env) (st : RunnerState) (stages : List Stage) :
    Except GraphError (RunnerState × (Stage → Option StageResult) × List Stage) :=
  match (StageDependencyGraph.from_stages stages).topological_sort with
  | Except.error e => Except.error e
  | Except.ok layers => Except.ok (execLayers env st (fun _ => none) layers)

/-! ## Concrete objects used by the claim witnesses and counterexamples -/

/-- A graph with a single self-referential dependency (a cycle of size
one), as the circular-dependency witness. -/
def selfLoopGraph : StageDependencyGraph :=
  StageDependencyGraph.new.add_dependency Stage.Build Stage.Build

/-- An environment whose generator gives PreValidation one failing step and
every other stage one succeeding step. -/
def envPrevalFails : Env :=
  { gen := fun s => if s = Stage.PreValidation
      then [⟨"preval", ["false"]⟩] else [⟨"other", ["true"]⟩]
    ex := fun b => if b.description = "preval"
      then ⟨false, 1, [], [], some 1, some "Exit code 1"⟩
      else ⟨true, 1, [], [], some 0, none⟩
    execProgram := ⟨true, 5, [], [], some 0, none⟩
    execInfo := none
    elapsed := fun _ => 7 }

/-- A runner state carrying one already-recorded Failed result (for the
Build stage), as left behind by an earlier layer. -/
def stateAfterBuildFailure : RunnerState :=
  { initialState with
    results := fun s => if s = Stage.Build
      then some (StageResult.Failed "Exit code 1" 3 1) else none
    statuses := fun s => if s = Stage.Build then some StageStatus.Failed else none }

/-! ## Lemmas about `splitOnChar` -/

theorem splitOnChar_ne_nil (c : Char) : ∀ s : List Char, splitOnChar c s ≠ []
  | [] => by simp [splitOnChar]
  | x :: xs => by
    have h := splitOnChar_ne_nil c xs
    unfold splitOnChar
    rcases hr : splitOnChar c xs with _ | ⟨y, ys⟩
    · exact absurd hr h
    · by_cases hx : x = c <;> simp [hx, hr]

theorem splitOnChar_of_not_mem {c : Char} : ∀ {a : List Char}, c ∉ a →
    splitOnChar c a = [a]
  | [], _ => rfl
  | x :: xs, h => by
    have hx : ¬x = c := fun hc => h (hc ▸ List.mem_cons_self x xs)
    have hxs : c ∉ xs := fun hc => h (List.mem_cons_of_mem x hc)
    unfold splitOnChar
    rw [splitOnChar_of_not_mem hxs]
    simp [hx]

theorem splitOnChar_append_cons {c : Char} : ∀ {a : List Char}, c ∉ a →
    ∀ b : List Char, splitOnChar c (a ++ c :: b) = a :: splitOnChar c b
  | [], _, b => by simp [splitOnChar]
  | x :: xs, h, b => by
    have hx : ¬x = c := fun hc => h (hc ▸ List.mem_cons_self x xs)
    have hxs : c ∉ xs := fun hc => h (List.mem_cons_of_mem x hc)
    have ih := splitOnChar_append_cons hxs b
    simp only [List.cons_append, splitOnChar, hx, if_false]
    simp only [List.append_eq]
    rw [ih]

/-! ## Metric parser claims -/

/-- C8: the spec claims the optional `[:<visualization>]` token of a metric
line is matched (case-insensitively) into the metric.  The code never does:
`kv[1]` is a segment of `parts[1]`, which was produced by splitting on `':'`
and hence contains no `':'`, so the `value_and_viz.len() > 1` branch is
unreachable.  At the failing input below the token `sparkline` is a
recognized visualization name (second conjunct), yet the parsed metric
carries `explicit_visualization = none` (first conjunct). -/
theorem C8_visualization_token_dropped :
    (parse_metric_line ("[IGNIS_METRIC] render:fps=60:sparkline".toList)).map
        (fun m => m.explicit_visualization) = some none ∧
    MetricVisualization.fromStr ("sparkline".toList) = some MetricVisualization.Sparkline := by
  constructor
  · rfl
  · rfl

theorem not_mem_append_cons {c x : Char} {a b : List Char}
    (ha : c ∉ a) (hx : c ≠ x) (hb : c ∉ b) : c ∉ a ++ x :: b := by
  intro h
  rcases List.mem_append.mp h with h | h
  · exact ha h
  · rcases List.mem_cons.mp h with h | h
    · exact hx h
    · exact hb h

/-- C10: a metric line whose trailing `:<token>` carries an arbitrary token
still parses to a metric with `explicit_visualization = none` (first part;
the token is not even inspected, so in particular an unrecognized token does
not make the line fall through to log handling), and a line returns `none`
exactly when the `[IGNIS_METRIC] ` prefix is missing, the `':'` category
split yields fewer than two segments, or the `'='` split of the second
segment does not yield exactly two pieces (second part). -/
theorem C10_metric_line_grammar :
    (∀ category key value token : List Char,
      ':' ∉ category → ':' ∉ key → '=' ∉ key → ':' ∉ value → '=' ∉ value →
      parse_metric_line
          (metricMarker ++ category ++ ':' :: (key ++ '=' :: (value ++ ':' :: token)))
        = some { key := key, value := value, category := category,
                 explicit_visualization := none }) ∧
    (∀ line : List Char,
      (parse_metric_line line).isNone = true ↔
        (line.take metricMarker.length ≠ metricMarker ∨
          match splitOnChar ':' (line.drop metricMarker.length) with
          | _ :: part1 :: _ => (splitOnChar '=' part1).length ≠ 2
          | _ => True)) := by
  constructor
  · intro category key value token hc hk1 hk2 hv1 hv2
    have hassoc : key ++ '=' :: (value ++ ':' :: token)
        = (key ++ '=' :: value) ++ ':' :: token := by
      simp
    have hnm : ':' ∉ key ++ '=' :: value :=
      not_mem_append_cons hk1 (by decide) hv1
    have h1 : splitOnChar ':' (category ++ ':' :: (key ++ '=' :: (value ++ ':' :: token)))
        = category :: ((key ++ '=' :: value) :: splitOnChar ':' token) := by
      rw [splitOnChar_append_cons hc, hassoc, splitOnChar_append_cons hnm]
    have h3 : splitOnChar '=' (key ++ '=' :: value) = [key, value] := by
      rw [splitOnChar_append_cons hk2, splitOnChar_of_not_mem hv2]
    have h5 : splitOnChar ':' value = [value] := splitOnChar_of_not_mem hv1
    rw [List.append_assoc]
    unfold parse_metric_line
    rw [List.take_left, List.drop_left, if_pos rfl]
    simp only [h1, h3, h5]
  · intro line
    by_cases hpre : line.take metricMarker.length = metricMarker
    · rcases hps : splitOnChar ':' (line.drop metricMarker.length) with _ | ⟨cat, rest1⟩
      · exact absurd hps (splitOnChar_ne_nil _ _)
      · rcases rest1 with _ | ⟨p1, rest2⟩
        · simp [parse_metric_line, hpre, hps]
        · rcases hkv : splitOnChar '=' p1 with _ | ⟨k, _ | ⟨kv2, _ | ⟨x, xs⟩⟩⟩
          · exact absurd hkv (splitOnChar_ne_nil _ _)
          · simp [parse_metric_line, hpre, hps, hkv]
          · rcases hvv : splitOnChar ':' kv2 with _ | ⟨v, viz⟩
            · exact absurd hvv (splitOnChar_ne_nil _ _)
            · simp [parse_metric_line, hpre, hps, hkv, hvv]
          · simp [parse_metric_line, hpre, hps, hkv]
    · simp [parse_metric_line, hpre]

/-- Witness for C10: a concrete metric line with the unrecognized token
`wibble` parses to a metric with no explicit visualization. -/
theorem C10_metric_line_grammar_witness :
    parse_metric_line
        (metricMarker ++ "render".toList ++ ':' ::
          ("fps".toList ++ '=' :: ("60".toList ++ ':' :: "wibble".toList)))
      = some { key := "fps".toList, value := "60".toList,
               category := "render".toList, explicit_visualization := none } :=
  C10_metric_line_grammar.1 "render".toList "fps".toList "60".toList "wibble".toList
    (by decide) (by decide) (by decide) (by decide) (by decide)

/-! ## Executor claim: `execute_steps` stops at the first failure -/

theorem execute_steps_impl_take (ex : BuildStep → ExecutionResult) :
    ∀ (steps : List BuildStep) (k : Nat) (sk : BuildStep),
      steps.get? k = some sk → (ex sk).success = false →
      (∀ s ∈ steps.take k, (ex s).success = true) →
      execute_steps_impl ex steps = ((steps.take (k + 1)).map ex, steps.take (k + 1))
  | [], k, sk, hk, _, _ => by simp at hk
  | s :: rest, 0, sk, hk, hfail, _ => by
    have hs : s = sk := by simpa using hk
    subst hs
    simp [execute_steps_impl, hfail]
  | s :: rest, k + 1, sk, hk, hfail, hbefore => by
    have hs : (ex s).success = true := hbefore s (by simp)
    have hrest : rest.get? k = some sk := by simpa using hk
    have hbefore' : ∀ x ∈ rest.take k, (ex x).success = true := by
      intro x hx
      exact hbefore x (by simp [hx])
    have ih := execute_steps_impl_take ex rest k sk hrest hfail hbefore'
    simp [execute_steps_impl, hs, ih]

/-- C5: `execute_steps` runs the steps strictly in list order and stops at
the first failing step.  With `k` the 0-based index of the first step whose
oracle outcome is a failure, the results are exactly the outcomes of the
first `k + 1` steps (so the later steps are never handed to `execute_step`,
second conjunct), the result list has `k + 1` elements, its last element is
the failing result, and every earlier element has `success = true`. -/
theorem C5_execute_steps_first_failure (ex : BuildStep → ExecutionResult)
    (steps : List BuildStep) (k : Nat) (sk : BuildStep)
    (hk : steps.get? k = some sk) (hfail : (ex sk).success = false)
    (hbefore : ∀ s ∈ steps.take k, (ex s).success = true) :
    execute_steps ex steps = (steps.take (k + 1)).map ex ∧
    (execute_steps_impl ex steps).2 = steps.take (k + 1) ∧
    (execute_steps ex steps).length = k + 1 ∧
    (execute_steps ex steps).getLast? = some (ex sk) ∧
    (∀ r ∈ (execute_steps ex steps).dropLast, r.success = true) := by
  have hlen : k < steps.length := List.get?_eq_some.mp hk |>.1
  have himpl := execute_steps_impl_take ex steps k sk hk hfail hbefore
  have htake : steps.take (k + 1) = steps.take k ++ [sk] := by
    rw [← List.take_concat_get steps k hlen, List.concat_eq_append]
    have h2 := List.get?_eq_get (l := steps) (n := k) hlen
    rw [hk] at h2
    have h3 : sk = steps.get ⟨k, hlen⟩ := Option.some_inj.mp h2
    rw [h3, List.get_eq_getElem]
  have hres : execute_steps ex steps = (steps.take (k + 1)).map ex := by
    unfold execute_steps
    rw [himpl]
  refine ⟨hres, by rw [himpl], ?_, ?_, ?_⟩
  · rw [hres]
    simp [List.length_take]
    omega
  · rw [hres, htake]
    simp
  · intro r hr
    rw [hres, htake] at hr
    simp only [List.map_append, List.map_cons, List.map_nil, List.dropLast_concat] at hr
    rcases List.mem_map.mp hr with ⟨s, hsmem, rfl⟩
    have : s ∈ steps.take k := by
      have hk' : min k steps.length = k := by omega
      simpa using hsmem
    exact hbefore s this

/-- Witness for C5: three concrete steps whose second fails yield exactly a
two-element result list ending in the failing result. -/
theorem C5_execute_steps_first_failure_witness :
    ([⟨"a", ["a"]⟩, ⟨"b", ["b"]⟩, ⟨"c", ["c"]⟩] : List BuildStep).get? 1
        = some ⟨"b", ["b"]⟩ ∧
    (execute_steps
        (fun s => if s.description = "b"
          then ⟨false, 1, [], [], some 1, some "Exit code 1"⟩
          else ⟨true, 1, [], [], some 0, none⟩)
        [⟨"a", ["a"]⟩, ⟨"b", ["b"]⟩, ⟨"c", ["c"]⟩]).length = 1 + 1 := by
  refine ⟨by decide, ?_⟩
  have h := C5_execute_steps_first_failure
    (fun s => if s.description = "b"
      then ⟨false, 1, [], [], some 1, some "Exit code 1"⟩
      else ⟨true, 1, [], [], some 0, none⟩)
    [⟨"a", ["a"]⟩, ⟨"b", ["b"]⟩, ⟨"c", ["c"]⟩] 1 ⟨"b", ["b"]⟩
    (by decide) (by decide) (by decide)
  exact h.2.2.1

/-! ## Stage-runner claims about `execute_stage` -/

/-- C6: for every stage other than Exec, an empty generated step list makes
`execute_stage` record `Skipped("No steps to execute")` as the stage result
(in the return value and in the shared results map) and status `Skipped` —
in particular never `Success`.  The statement does not depend on where the
stage sits in the dependency order. -/
theorem C6_empty_steps_skipped (env : Env) (st : RunnerState) (stage : Stage)
    (hne : stage ≠ Stage.Exec) (hgen : env.gen stage = []) :
    (execute_stage env st stage).2 = StageResult.Skipped "No steps to execute" ∧
    (execute_stage env st stage).1.results stage
      = some (StageResult.Skipped "No steps to execute") ∧
    (execute_stage env st stage).1.statuses stage = some StageStatus.Skipped := by
  simp [execute_stage, hne, hgen, setResult, setStatus]

/-- Witness for C6: the Build stage with a generator returning no steps. -/
theorem C6_empty_steps_skipped_witness :
    (Stage.Build ≠ Stage.Exec) ∧
    (execute_stage
        ⟨fun _ => [], fun _ => ⟨true, 0, [], [], some 0, none⟩,
         ⟨true, 0, [], [], some 0, none⟩, none, fun _ => 0⟩
        initialState Stage.Build).2 = StageResult.Skipped "No steps to execute" :=
  ⟨by decide,
   (C6_empty_steps_skipped
     ⟨fun _ => [], fun _ => ⟨true, 0, [], [], some 0, none⟩,
      ⟨true, 0, [], [], some 0, none⟩, none, fun _ => 0⟩
     initialState Stage.Build (by decide) rfl).1⟩

/-- C7: `execute_stage` on the Exec stage without an executable descriptor
returns the synthesized `Failed` result with duration `0` and
`steps_executed = 0`, records status Failed, spawns no process and never
consults the step generator. -/
theorem C7_exec_without_info_fails (env : Env) (st : RunnerState)
    (hinfo : env.execInfo = none) :
    (execute_stage env st Stage.Exec).2
      = StageResult.Failed "Exec stage requires executable info" 0 0 ∧
    (execute_stage env st Stage.Exec).1.results Stage.Exec
      = some (StageResult.Failed "Exec stage requires executable info" 0 0) ∧
    (execute_stage env st Stage.Exec).1.statuses Stage.Exec = some StageStatus.Failed ∧
    (execute_stage env st Stage.Exec).1.spawned = st.spawned ∧
    (execute_stage env st Stage.Exec).1.genCalls = st.genCalls := by
  simp [execute_stage, hinfo, setResult, setStatus]

/-- Witness for C7: a concrete environment with no executable descriptor. -/
theorem C7_exec_without_info_fails_witness :
    ((⟨fun _ => [⟨"s", ["s"]⟩], fun _ => ⟨true, 0, [], [], some 0, none⟩,
       ⟨true, 0, [], [], some 0, none⟩, none, fun _ => 0⟩ : Env).execInfo = none) ∧
    (execute_stage
        ⟨fun _ => [⟨"s", ["s"]⟩], fun _ => ⟨true, 0, [], [], some 0, none⟩,
         ⟨true, 0, [], [], some 0, none⟩, none, fun _ => 0⟩
        initialState Stage.Exec).2
      = StageResult.Failed "Exec stage requires executable info" 0 0 :=
  ⟨rfl,
   (C7_exec_without_info_fails
     ⟨fun _ => [⟨"s", ["s"]⟩], fun _ => ⟨true, 0, [], [], some 0, none⟩,
      ⟨true, 0, [], [], some 0, none⟩, none, fun _ => 0⟩
     initialState rfl).1⟩

/-! ## Graph construction lemmas -/

namespace StageDependencyGraph

theorem add_stage_adjacency (g : StageDependencyGraph) (s : Stage) :
    (g.add_stage s).adjacency = g.adjacency := rfl

theorem add_stage_in_degree (g : StageDependencyGraph) (s : Stage) :
    (g.add_stage s).in_degree = g.in_degree := rfl

theorem add_stage_stages_mem (g : StageDependencyGraph) (s x : Stage) :
    x ∈ (g.add_stage s).stages ↔ x ∈ g.stages ∨ x = s := by
  by_cases h : s ∈ g.stages
  · simp only [add_stage, if_pos h]
    constructor
    · exact fun hx => Or.inl hx
    · rintro (hx | rfl)
      · exact hx
      · exact h
  · simp [add_stage, if_neg h]

theorem add_stage_nodup {g : StageDependencyGraph} (hg : g.stages.Nodup) (s : Stage) :
    (g.add_stage s).stages.Nodup := by
  by_cases h : s ∈ g.stages
  · simpa [add_stage, if_pos h] using hg
  · simp only [add_stage, if_neg h]
    simpa [List.nodup_append] using ⟨hg, fun hx => h hx⟩

theorem add_stage_of_mem {g : StageDependencyGraph} {s : Stage} (h : s ∈ g.stages) :
    g.add_stage s = g := by
  simp [add_stage, if_pos h]

theorem add_stage_mem_self (g : StageDependencyGraph) (s : Stage) :
    s ∈ (g.add_stage s).stages := by
  rw [add_stage_stages_mem]
  exact Or.inr rfl

theorem add_stage_mem_of_mem {g : StageDependencyGraph} {x : Stage} (s : Stage)
    (h : x ∈ g.stages) : x ∈ (g.add_stage s).stages := by
  rw [add_stage_stages_mem]
  exact Or.inl h

/-- Replacing one list of a flatMap over a duplicate-free list by itself with
a suffix appended adds exactly the suffix's occurrences to every count. -/
theorem count_flatMap_update (a : Stage) (f : Stage → List Stage) (ext : List Stage)
    (t : Stage) :
    ∀ {l : List Stage}, l.Nodup → a ∈ l →
      (l.flatMap (fun x => if x = a then f a ++ ext else f x)).count t
        = (l.flatMap f).count t + ext.count t
  | [], _, ha => by simp at ha
  | y :: rest, hnd, ha => by
    rcases List.mem_cons.mp ha with rfl | ha'
    · have hrest : ∀ x ∈ rest, (if x = a then f a ++ ext else f x) = f x := by
        intro x hx
        have hxa : x ≠ a := fun hxy => (List.nodup_cons.mp hnd).1 (hxy ▸ hx)
        simp [hxa]
      have hmap : rest.flatMap (fun x => if x = a then f a ++ ext else f x)
          = rest.flatMap f := by
        simp only [List.flatMap_def]
        rw [List.map_congr_left hrest]
      rw [List.flatMap_cons, List.flatMap_cons, List.count_append, List.count_append,
        if_pos rfl, List.count_append, hmap]
      omega
    · have hy : ¬(y = a) := by
        rintro rfl
        exact (List.nodup_cons.mp hnd).1 ha'
      have ih := count_flatMap_update a f ext t (List.nodup_cons.mp hnd).2 ha'
      rw [List.flatMap_cons, List.flatMap_cons, List.count_append, List.count_append,
        if_neg hy, ih]
      omega

theorem WF_new : WFGraph new := by
  refine ⟨List.nodup_nil, fun _ _ => rfl, ?_, ?_⟩
  · intro s t h
    simp [new] at h
  · intro t
    simp [new]

theorem WF_add_stage {g : StageDependencyGraph} (hg : WFGraph g) (s : Stage) :
    WFGraph (g.add_stage s) := by
  obtain ⟨hnd, hadj0, htarg, hdeg⟩ := hg
  by_cases h : s ∈ g.stages
  · rw [add_stage_of_mem h]
    exact ⟨hnd, hadj0, htarg, hdeg⟩
  · refine ⟨add_stage_nodup hnd s, ?_, ?_, ?_⟩
    · intro x hx
      rw [add_stage_adjacency]
      exact hadj0 x (fun hm => hx (add_stage_mem_of_mem s hm))
    · intro x t ht
      rw [add_stage_adjacency] at ht
      exact add_stage_mem_of_mem s (htarg x t ht)
    · intro t
      rw [add_stage_adjacency, add_stage_in_degree]
      have hnew : (g.add_stage s).stages = g.stages ++ [s] := by
        simp [add_stage, if_neg h]
      rw [hnew]
      have : g.adjacency s = [] := hadj0 s h
      simp [List.count_append, this, hdeg t]

theorem WF_add_dependency {g : StageDependencyGraph} (hg : WFGraph g) (a b : Stage) :
    WFGraph (g.add_dependency a b) := by
  have hg1 : WFGraph ((g.add_stage a).add_stage b) := WF_add_stage (WF_add_stage hg a) b
  obtain ⟨hnd, hadj0, htarg, hdeg⟩ := hg1
  have hmema : a ∈ ((g.add_stage a).add_stage b).stages :=
    add_stage_mem_of_mem b (add_stage_mem_self g a)
  have hmemb : b ∈ ((g.add_stage a).add_stage b).stages := add_stage_mem_self _ b
  refine ⟨hnd, ?_, ?_, ?_⟩
  · intro x hx
    show (if x = a then _ else _) = []
    have hxa : ¬(x = a) := by
      rintro rfl
      exact hx hmema
    rw [if_neg hxa]
    exact hadj0 x hx
  · intro x t ht
    show t ∈ ((g.add_dependency a b).stages)
    by_cases hxa : x = a
    · subst hxa
      simp only [add_dependency, if_pos rfl] at ht
      rcases List.mem_append.mp ht with h1 | h1
      · exact htarg x t h1
      · rcases List.mem_singleton.mp h1 with rfl
        exact hmemb
    · simp only [add_dependency, if_neg hxa] at ht
      exact htarg x t ht
  · intro t
    show (if t = b then _ + 1 else _) = _
    have hcnt := count_flatMap_update a ((g.add_stage a).add_stage b).adjacency [b] t hnd hmema
    have hstg : (g.add_dependency a b).stages = ((g.add_stage a).add_stage b).stages := rfl
    have hadje : (g.add_dependency a b).adjacency
        = fun x => if x = a then ((g.add_stage a).add_stage b).adjacency a ++ [b]
            else ((g.add_stage a).add_stage b).adjacency x := rfl
    rw [hstg, hadje, hcnt, ← hdeg t]
    by_cases htb : t = b
    · subst htb
      simp
    · simp [htb]

theorem foldl_preserve {α β : Type} (P : α → Prop) (f : α → β → α)
    (h : ∀ a b, P a → P (f a b)) :
    ∀ (l : List β) (a : α), P a → P (l.foldl f a)
  | [], _, ha => ha
  | b :: l, a, ha => foldl_preserve P f h l (f a b) (h a b ha)

theorem foldl_add_stage_stages_mem :
    ∀ (S : List Stage) (g : StageDependencyGraph) (x : Stage),
      x ∈ (S.foldl add_stage g).stages ↔ x ∈ g.stages ∨ x ∈ S
  | [], g, x => by simp
  | s :: S, g, x => by
    rw [List.foldl_cons, foldl_add_stage_stages_mem S (g.add_stage s) x,
      add_stage_stages_mem]
    simp only [List.mem_cons]
    tauto

theorem foldl_add_stage_adjacency :
    ∀ (S : List Stage) (g : StageDependencyGraph),
      (S.foldl add_stage g).adjacency = g.adjacency
  | [], _ => rfl
  | s :: S, g => foldl_add_stage_adjacency S (g.add_stage s)

theorem foldl_add_stage_in_degree :
    ∀ (S : List Stage) (g : StageDependencyGraph),
      (S.foldl add_stage g).in_degree = g.in_degree
  | [], _ => rfl
  | s :: S, g => foldl_add_stage_in_degree S (g.add_stage s)

theorem add_dependency_stages (g : StageDependencyGraph) (a b : Stage) :
    (g.add_dependency a b).stages = ((g.add_stage a).add_stage b).stages := rfl

theorem add_dependency_stages_of_mem {g : StageDependencyGraph} {a b : Stage}
    (ha : a ∈ g.stages) (hb : b ∈ g.stages) :
    (g.add_dependency a b).stages = g.stages := by
  rw [add_dependency_stages, add_stage_of_mem ha, add_stage_of_mem hb]

/-- The inner dependency-wiring fold (over one stage's default dependency
list) leaves the registered-stage list unchanged as long as all wired
endpoints are already registered. -/
theorem inner_fold_stages (S : List Stage) (st : Stage) :
    ∀ (D : List Stage) (g : StageDependencyGraph),
      (∀ x ∈ S, x ∈ g.stages) → st ∈ g.stages →
      ((D.foldl (fun g dep => if dep ∈ S then g.add_dependency dep st else g) g)).stages
        = g.stages
  | [], _, _, _ => rfl
  | d :: D, g, hS, hst => by
    rw [List.foldl_cons]
    by_cases hd : d ∈ S
    · rw [if_pos hd]
      have hstg := add_dependency_stages_of_mem (hS d hd) hst
      rw [inner_fold_stages S st D _ (fun x hx => hstg ▸ hS x hx) (hstg ▸ hst), hstg]
    · rw [if_neg hd]
      exact inner_fold_stages S st D g hS hst

/-- The outer dependency-wiring fold leaves the registered stages
unchanged. -/
theorem outer_fold_stages (S : List Stage) :
    ∀ (L : List Stage) (g : StageDependencyGraph),
      (∀ x ∈ S, x ∈ g.stages) → (∀ x ∈ L, x ∈ g.stages) →
      ((L.foldl
          (fun g stage =>
            stage.default_dependencies.foldl
              (fun g dep => if dep ∈ S then g.add_dependency dep stage else g) g)
          g)).stages = g.stages
  | [], _, _, _ => rfl
  | st :: L, g, hS, hL => by
    rw [List.foldl_cons]
    have h1 := inner_fold_stages S st st.default_dependencies g hS (hL st (by simp))
    rw [outer_fold_stages S L _ (fun x hx => h1 ▸ hS x hx)
      (fun x hx => h1 ▸ hL x (by simp [hx])), h1]

theorem from_stages_stages_mem (S : List Stage) (x : Stage) :
    x ∈ (from_stages S).stages ↔ x ∈ S := by
  unfold from_stages
  have hbase : ∀ x ∈ S, x ∈ (S.foldl add_stage new).stages := by
    intro x hx
    rw [foldl_add_stage_stages_mem]
    exact Or.inr hx
  rw [outer_fold_stages S S _ hbase hbase, foldl_add_stage_stages_mem]
  simp [new]

theorem from_stages_stages_nodup (S : List Stage) : (from_stages S).stages.Nodup := by
  unfold from_stages
  have hbase : ∀ x ∈ S, x ∈ (S.foldl add_stage new).stages := by
    intro x hx
    rw [foldl_add_stage_stages_mem]
    exact Or.inr hx
  rw [outer_fold_stages S S _ hbase hbase]
  exact foldl_preserve (fun g => g.stages.Nodup)
    add_stage (fun g s hg => add_stage_nodup hg s) S new List.nodup_nil

theorem WF_from_stages (S : List Stage) : WFGraph (from_stages S) := by
  unfold from_stages
  have h1 : WFGraph (S.foldl add_stage new) :=
    foldl_preserve WFGraph add_stage (fun g s hg => WF_add_stage hg s) S new WF_new
  refine foldl_preserve WFGraph _ ?_ S _ h1
  intro g st hg
  exact foldl_preserve WFGraph _
    (fun g dep hg => by
      by_cases hd : dep ∈ S
      · simpa [hd] using WF_add_dependency hg dep st
      · simpa [hd] using hg)
    st.default_dependencies g hg

theorem add_dependency_adjacency_mem (g : StageDependencyGraph) (a b x t : Stage) :
    t ∈ (g.add_dependency a b).adjacency x ↔ t ∈ g.adjacency x ∨ (x = a ∧ t = b) := by
  show t ∈ (if x = a then _ ++ [b] else _) ↔ _
  by_cases hxa : x = a
  · subst hxa
    rw [if_pos rfl, add_stage_adjacency, add_stage_adjacency]
    simp
  · rw [if_neg hxa, add_stage_adjacency, add_stage_adjacency]
    simp [hxa]

theorem inner_fold_adj_mem (S : List Stage) (st : Stage) :
    ∀ (D : List Stage) (g : StageDependencyGraph) (x t : Stage),
      t ∈ ((D.foldl (fun g dep => if dep ∈ S then g.add_dependency dep st else g) g)).adjacency x
        ↔ t ∈ g.adjacency x ∨ (x ∈ D ∧ x ∈ S ∧ t = st)
  | [], g, x, t => by simp
  | d :: D, g, x, t => by
    rw [List.foldl_cons]
    by_cases hd : d ∈ S
    · rw [if_pos hd, inner_fold_adj_mem S st D _ x t, add_dependency_adjacency_mem]
      simp only [List.mem_cons]
      constructor
      · rintro ((h | ⟨rfl, rfl⟩) | ⟨hx, hxS, rfl⟩)
        · exact Or.inl h
        · exact Or.inr ⟨Or.inl rfl, hd, rfl⟩
        · exact Or.inr ⟨Or.inr hx, hxS, rfl⟩
      · rintro (h | ⟨rfl | hx, hxS, rfl⟩)
        · exact Or.inl (Or.inl h)
        · exact Or.inl (Or.inr ⟨rfl, rfl⟩)
        · exact Or.inr ⟨hx, hxS, rfl⟩
    · rw [if_neg hd, inner_fold_adj_mem S st D g x t]
      simp only [List.mem_cons]
      constructor
      · rintro (h | ⟨hx, hxS, rfl⟩)
        · exact Or.inl h
        · exact Or.inr ⟨Or.inr hx, hxS, rfl⟩
      · rintro (h | ⟨rfl | hx, hxS, rfl⟩)
        · exact Or.inl h
        · exact absurd hxS hd
        · exact Or.inr ⟨hx, hxS, rfl⟩

theorem outer_fold_adj_mem (S : List Stage) :
    ∀ (L : List Stage) (g : StageDependencyGraph) (x t : Stage),
      t ∈ ((L.foldl
          (fun g stage =>
            stage.default_dependencies.foldl
              (fun g dep => if dep ∈ S then g.add_dependency dep stage else g) g)
          g)).adjacency x
        ↔ t ∈ g.adjacency x ∨ (t ∈ L ∧ x ∈ t.default_dependencies ∧ x ∈ S)
  | [], g, x, t => by simp
  | st :: L, g, x, t => by
    rw [List.foldl_cons, outer_fold_adj_mem S L _ x t, inner_fold_adj_mem S st _ g x t]
    simp only [List.mem_cons]
    constructor
    · rintro ((h | ⟨hx, hxS, rfl⟩) | ⟨hT, hx, hxS⟩)
      · exact Or.inl h
      · exact Or.inr ⟨Or.inl rfl, hx, hxS⟩
      · exact Or.inr ⟨Or.inr hT, hx, hxS⟩
    · rintro (h | ⟨rfl | hT, hx, hxS⟩)
      · exact Or.inl (Or.inl h)
      · exact Or.inl (Or.inr ⟨hx, hxS, rfl⟩)
      · exact Or.inr ⟨hT, hx, hxS⟩

/-- Membership characterization of the edges built by `from_stages`:
`t ∈ adjacency x` exactly when `x` is a default dependency of `t` and both
are requested. -/
theorem from_stages_adj_mem (S : List Stage) (x t : Stage) :
    t ∈ (from_stages S).adjacency x
      ↔ t ∈ S ∧ x ∈ t.default_dependencies ∧ x ∈ S := by
  unfold from_stages
  rw [outer_fold_adj_mem S S _ x t, foldl_add_stage_adjacency]
  simp [new]

theorem rank_lt_of_default_dep : ∀ s t : Stage, s ∈ t.default_dependencies →
    s.rank < t.rank := by decide

/-- Every edge of a `from_stages` graph strictly increases `Stage.rank`. -/
theorem from_stages_edge_rank {S : List Stage} {x t : Stage}
    (h : t ∈ (from_stages S).adjacency x) : x.rank < t.rank :=
  rank_lt_of_default_dep x t ((from_stages_adj_mem S x t).mp h).2.1

/-- For a duplicate-free request, the registered stages of `from_stages` are
a permutation of the request. -/
theorem from_stages_stages_perm {S : List Stage} (hS : S.Nodup) :
    ((from_stages S).stages).Perm S := by
  have h1 : (from_stages S).stages.Subperm S :=
    (from_stages_stages_nodup S).subperm (fun x hx => (from_stages_stages_mem S x).mp hx)
  have h2 : S.Subperm (from_stages S).stages :=
    hS.subperm (fun x hx => (from_stages_stages_mem S x).mpr hx)
  exact h1.antisymm h2

/-! ## Kahn loop invariants -/

/-- Generalized specification of the dependent-decrement loop: starting from
the state reached after firing the edge multiset `P` out of an original
degree map `deg0` (with the overall bound that no stage receives more
decrements than its degree), firing the remaining edges `E` yields the
degree map `deg0 - count (P ++ E)`, and the collected queue holds exactly
the stages of positive original degree whose count reached their degree —
each exactly once. -/
theorem decrementDependents_spec :
    ∀ (E : List Stage) (deg0 : Stage → Nat) (P acc : List Stage) (deg : Stage → Nat),
      (∀ t, (P ++ E).count t ≤ deg0 t) →
      (∀ t, deg t = deg0 t - P.count t) →
      (∀ t, t ∈ acc ↔ (0 < deg0 t ∧ P.count t = deg0 t)) →
      acc.Nodup →
      (∀ t, (decrementDependents deg acc E).1 t = deg0 t - (P ++ E).count t) ∧
      (∀ t, t ∈ (decrementDependents deg acc E).2
        ↔ (0 < deg0 t ∧ (P ++ E).count t = deg0 t)) ∧
      (decrementDependents deg acc E).2.Nodup
  | [], deg0, P, acc, deg, _, hdeg, hacc, haccnd => by
    refine ⟨?_, ?_, haccnd⟩
    · intro t
      simpa using hdeg t
    · intro t
      simpa using hacc t
  | t0 :: E, deg0, P, acc, deg, hbound, hdeg, hacc, haccnd => by
    have hb0 : P.count t0 + 1 ≤ deg0 t0 := by
      have := hbound t0
      simp [List.count_append, List.count_cons] at this
      omega
    have hdt0 : deg t0 = deg0 t0 - P.count t0 := hdeg t0
    have hcnt : ∀ t, (P ++ [t0]).count t = P.count t + (if t = t0 then 1 else 0) := by
      intro t
      by_cases h : t = t0
      · subst h
        simp [List.count_append]
      · simp [List.count_append, h, Ne.symm h]
    have hbound' : ∀ t, ((P ++ [t0]) ++ E).count t ≤ deg0 t := by
      intro t
      have := hbound t
      simp only [List.count_append, List.count_cons] at this ⊢
      simp only [hcnt, List.count_append] at *
      by_cases h : t = t0 <;> simp [h] at this ⊢ <;> omega
    have hdeg' : ∀ t, (if t = t0 then deg t0 - 1 else deg t) = deg0 t - (P ++ [t0]).count t := by
      intro t
      by_cases h : t = t0
      · subst h
        rw [if_pos rfl, hdt0, hcnt t, if_pos rfl]
        omega
      · rw [if_neg h, hdeg t, hcnt t, if_neg h]
        omega
    have hmem' : ∀ t, t ∈ (if deg t0 - 1 = 0 then acc ++ [t0] else acc)
        ↔ (0 < deg0 t ∧ (P ++ [t0]).count t = deg0 t) := by
      intro t
      rw [hcnt t]
      by_cases hd : deg t0 - 1 = 0
      · rw [if_pos hd]
        rw [hdt0] at hd
        by_cases h : t = t0
        · subst h
          have h1 : (if t = t then 1 else 0) = 1 := if_pos rfl
          rw [h1]
          simp only [List.mem_append, List.mem_singleton]
          constructor
          · intro _
            exact ⟨by omega, by omega⟩
          · intro _
            exact Or.inr trivial
        · simp only [if_neg h, List.mem_append, List.mem_singleton]
          rw [hacc t]
          constructor
          · rintro (h1 | rfl)
            · omega
            · exact absurd rfl h
          · intro h1
            exact Or.inl (by omega)
      · rw [if_neg hd]
        rw [hdt0] at hd
        by_cases h : t = t0
        · subst h
          have h1 : (if t = t then 1 else 0) = 1 := if_pos rfl
          rw [h1, hacc t]
          constructor
          · rintro ⟨h1, h2⟩
            exact absurd h2 (by omega)
          · rintro ⟨h1, h2⟩
            exact absurd h2 (by omega)
        · simp only [if_neg h]
          rw [hacc t]
          simp
    have haccnd' : (if deg t0 - 1 = 0 then acc ++ [t0] else acc).Nodup := by
      by_cases hd : deg t0 - 1 = 0
      · rw [if_pos hd]
        refine List.Nodup.append haccnd (List.nodup_singleton t0) ?_
        intro x hx hx0
        rcases List.mem_singleton.mp hx0 with rfl
        have := (hacc x).mp hx
        omega
      · rw [if_neg hd]
        exact haccnd
    have ih := decrementDependents_spec E deg0 (P ++ [t0])
      (if deg t0 - 1 = 0 then acc ++ [t0] else acc)
      (fun x => if x = t0 then deg t0 - 1 else deg x)
      hbound' (fun t => hdeg' t) hmem' haccnd'
    have hassoc : (P ++ [t0]) ++ E = P ++ t0 :: E := by simp
    rw [hassoc] at ih
    exact ih

/-- `decrementDependents` over an appended edge list runs the two halves in
sequence. -/
theorem decrementDependents_append :
    ∀ (E1 E2 : List Stage) (deg : Stage → Nat) (acc : List Stage),
      decrementDependents deg acc (E1 ++ E2)
        = decrementDependents (decrementDependents deg acc E1).1
            (decrementDependents deg acc E1).2 E2
  | [], _, _, _ => rfl
  | t :: E1, E2, deg, acc => by
    simp only [List.cons_append, decrementDependents]
    exact decrementDependents_append E1 E2 _ _

/-- The nested per-stage loops of one layer equal one pass over the layer's
concatenated adjacency lists. -/
theorem processQueue_eq_decrement (adj : Stage → List Stage) :
    ∀ (Q : List Stage) (deg : Stage → Nat) (acc : List Stage),
      processQueue adj deg acc Q = decrementDependents deg acc (Q.flatMap adj)
  | [], _, _ => rfl
  | s :: Q, deg, acc => by
    simp only [processQueue, List.flatMap_cons, decrementDependents_append]
    exact processQueue_eq_decrement adj Q _ _

theorem sublist_flatMap {l₁ l₂ : List Stage} (h : l₁.Sublist l₂)
    (f : Stage → List Stage) : (l₁.flatMap f).Sublist (l₂.flatMap f) := by
  induction h with
  | slnil => simp
  | cons a h ih => exact ih.trans (List.sublist_append_right _ _)
  | cons₂ a h ih => simpa using ih.append_left (f a)

theorem subperm_flatMap {l₁ l₂ : List Stage} (h : l₁.Subperm l₂)
    (f : Stage → List Stage) : (l₁.flatMap f).Subperm (l₂.flatMap f) := by
  rcases h with ⟨l, hp, hs⟩
  exact ⟨l.flatMap f, hp.flatMap_right f, sublist_flatMap hs f⟩

/-- Counting edges from a duplicate-free sub-collection of sources never
exceeds counting them from the full duplicate-free source list. -/
theorem count_flatMap_le {l m : List Stage} (f : Stage → List Stage) (t : Stage)
    (hnd : l.Nodup) (hsub : ∀ x ∈ l, x ∈ m) :
    (l.flatMap f).count t ≤ (m.flatMap f).count t :=
  (subperm_flatMap (hnd.subperm hsub) f).count_le t

/-- Dropping sources that contribute no `t`-edge does not change the count
of edges into `t`. -/
theorem count_flatMap_filter (f : Stage → List Stage) (t : Stage) (p : Stage → Bool) :
    ∀ l : List Stage, (∀ s ∈ l, p s = false → t ∉ f s) →
      (l.flatMap f).count t = ((l.filter p).flatMap f).count t
  | [], _ => rfl
  | s :: l, h => by
    have ih := count_flatMap_filter f t p l (fun x hx => h x (List.mem_cons_of_mem s hx))
    by_cases hp : p s = true
    · rw [List.flatMap_cons, List.filter_cons_of_pos hp,
        List.flatMap_cons, List.count_append, List.count_append, ih]
    · have hp' : p s = false := by simpa using hp
      have ht : t ∉ f s := h s (List.mem_cons_self s l) hp'
      rw [List.flatMap_cons, List.filter_cons_of_neg hp,
        List.count_append, List.count_eq_zero.mpr ht, ih]
      omega

/-- If strictly fewer `t`-edges originate in the processed set `J` than in
the whole registered set, some registered source outside `J` still has an
edge into `t`. -/
theorem exists_unprocessed_source {stages J : List Stage} {adj : Stage → List Stage}
    {t : Stage} (hstnd : stages.Nodup)
    (hlt : (J.flatMap adj).count t < (stages.flatMap adj).count t) :
    ∃ s, s ∈ stages ∧ s ∉ J ∧ t ∈ adj s := by
  by_contra hno
  push_neg at hno
  have hall : ∀ s ∈ stages, decide (s ∈ J) = false → t ∉ adj s := by
    intro s hs hn ht
    exact hno s hs (by simpa using hn) ht
  have h1 := count_flatMap_filter adj t (fun s => decide (s ∈ J)) stages hall
  have h2 : (stages.filter (fun s => decide (s ∈ J))).Nodup := hstnd.filter _
  have h3 : ∀ x ∈ stages.filter (fun s => decide (s ∈ J)), x ∈ J := by
    intro x hx
    simpa using (List.mem_filter.mp hx).2
  have h4 := count_flatMap_le adj t h2 h3
  omega

/-- `decrementDependents` starting from empty accumulators, for one layer's
edge list bounded by the current degrees. -/
theorem decrementDependents_spec0 (E : List Stage) (deg : Stage → Nat)
    (hbound : ∀ t, E.count t ≤ deg t) :
    (∀ t, (decrementDependents deg [] E).1 t = deg t - E.count t) ∧
    (∀ t, t ∈ (decrementDependents deg [] E).2 ↔ (0 < deg t ∧ E.count t = deg t)) ∧
    (decrementDependents deg [] E).2.Nodup := by
  have h := decrementDependents_spec E deg [] [] deg
    (by simpa using hbound) (by intro t; simp)
    (by intro t; simp; omega) List.nodup_nil
  simpa using h

/-- The master invariant of the Kahn loop.  Starting from a ghost list
`done` of already-processed stages and the current queue `Q` (every
registered stage of current degree zero is in `done ++ Q` and vice versa;
the current degree of `t` undercounts its in-degree by exactly the edges
out of `done`), with enough fuel the loop terminates with its queue empty
and:  the processed stages `done ++ layers.flatten` are duplicate-free
registered stages; `processed` counts them; a stage is processed iff its
final degree is zero; final degrees undercount in-degrees by exactly the
edges out of processed stages; and every edge into a stage of layer `j`
originates in `done` or in an earlier layer. -/
theorem kahn_master (adj : Stage → List Stage) (stages : List Stage)
    (indeg : Stage → Nat)
    (_hnds : stages.Nodup)
    (hadj0 : ∀ s : Stage, s ∉ stages → adj s = [])
    (htarg : ∀ s t : Stage, t ∈ adj s → t ∈ stages)
    (hindeg : ∀ t : Stage, indeg t = (stages.flatMap adj).count t) :
    ∀ (fuel : Nat) (done Q : List Stage) (deg : Stage → Nat),
      (done ++ Q).Nodup →
      (∀ s, s ∈ done ++ Q → s ∈ stages) →
      (∀ t, deg t + ((done.flatMap adj).count t) = indeg t) →
      (∀ t, t ∈ done ++ Q ↔ (t ∈ stages ∧ deg t = 0)) →
      stages.length - done.length < fuel →
      ((done ++ (kahnLoop adj fuel deg Q).1.flatten).Nodup ∧
       (∀ s, s ∈ (kahnLoop adj fuel deg Q).1.flatten → s ∈ stages) ∧
       (kahnLoop adj fuel deg Q).2.1 = (kahnLoop adj fuel deg Q).1.flatten.length ∧
       (∀ t, t ∈ done ++ (kahnLoop adj fuel deg Q).1.flatten
          ↔ (t ∈ stages ∧ (kahnLoop adj fuel deg Q).2.2 t = 0)) ∧
       (∀ t, (kahnLoop adj fuel deg Q).2.2 t
          + (((done ++ (kahnLoop adj fuel deg Q).1.flatten).flatMap adj).count t)
          = indeg t) ∧
       (∀ j L, (kahnLoop adj fuel deg Q).1.get? j = some L →
          ∀ t ∈ L, ∀ s, t ∈ adj s →
            s ∈ done ++ ((kahnLoop adj fuel deg Q).1.take j).flatten)) := by
  intro fuel
  induction fuel with
  | zero =>
    intro done Q deg _ _ _ _ hfuel
    exact absurd hfuel (Nat.not_lt_zero _)
  | succ n IH =>
    intro done Q deg hA hsub hB hC hfuel
    cases Q with
    | nil =>
      have hk : kahnLoop adj (n + 1) deg [] = ([], 0, deg) := by
        simp [kahnLoop]
      rw [hk]
      simp only [List.flatten_nil, List.append_nil] at *
      refine ⟨hA, ?_, rfl, hC, hB, ?_⟩
      · intro s hs
        simp at hs
      · intro j L hL
        simp at hL
    | cons q Q' =>
      have hrun : kahnLoop adj (n + 1) deg (q :: Q')
          = ((q :: Q') :: (kahnLoop adj n
                (decrementDependents deg [] ((q :: Q').flatMap adj)).1
                (decrementDependents deg [] ((q :: Q').flatMap adj)).2).1,
             (q :: Q').length + (kahnLoop adj n
                (decrementDependents deg [] ((q :: Q').flatMap adj)).1
                (decrementDependents deg [] ((q :: Q').flatMap adj)).2).2.1,
             (kahnLoop adj n
                (decrementDependents deg [] ((q :: Q').flatMap adj)).1
                (decrementDependents deg [] ((q :: Q').flatMap adj)).2).2.2) := by
        simp only [kahnLoop, List.isEmpty_cons, Bool.false_eq_true, if_false,
          processQueue_eq_decrement]
      set E := (q :: Q').flatMap adj with hE
      set P := decrementDependents deg [] E with hP
      have hboundE : ∀ t, E.count t ≤ deg t := by
        intro t
        have h1 := hB t
        have h2 := hindeg t
        have h3 : ((done ++ q :: Q').flatMap adj).count t ≤ (stages.flatMap adj).count t :=
          count_flatMap_le adj t hA hsub
        rw [List.flatMap_append, List.count_append, ← hE] at h3
        omega
      obtain ⟨hdeg2, hmem2, hnd2⟩ := decrementDependents_spec0 E deg hboundE
      have hdisj : List.Disjoint (done ++ q :: Q') P.2 := by
        intro x hx hx2
        have h0 : deg x = 0 := ((hC x).mp hx).2
        have := (hmem2 x).mp hx2
        omega
      have hA' : ((done ++ q :: Q') ++ P.2).Nodup := hA.append hnd2 hdisj
      have hsub' : ∀ s, s ∈ (done ++ q :: Q') ++ P.2 → s ∈ stages := by
        intro s hs
        rcases List.mem_append.mp hs with hs | hs
        · exact hsub s hs
        · have hpos : 0 < E.count s := by
            have := (hmem2 s).mp hs
            omega
          have hsE : s ∈ E := List.count_pos_iff.mp hpos
          rcases List.mem_flatMap.mp hsE with ⟨s0, _, hmem⟩
          exact htarg s0 s hmem
      have hB' : ∀ t, P.1 t + (((done ++ q :: Q').flatMap adj).count t) = indeg t := by
        intro t
        rw [List.flatMap_append, List.count_append, ← hE, hdeg2 t]
        have := hB t
        have := hboundE t
        omega
      have hC' : ∀ t, t ∈ (done ++ q :: Q') ++ P.2 ↔ (t ∈ stages ∧ P.1 t = 0) := by
        intro t
        rw [hdeg2 t]
        constructor
        · intro ht
          rcases List.mem_append.mp ht with ht | ht
          · have := (hC t).mp ht
            exact ⟨this.1, by omega⟩
          · have := (hmem2 t).mp ht
            exact ⟨hsub' t (List.mem_append.mpr (Or.inr ht)), by omega⟩
        · rintro ⟨hst, hz⟩
          have hb := hboundE t
          by_cases h0 : deg t = 0
          · exact List.mem_append.mpr (Or.inl ((hC t).mpr ⟨hst, h0⟩))
          · have : t ∈ P.2 := (hmem2 t).mpr ⟨by omega, by omega⟩
            exact List.mem_append.mpr (Or.inr this)
      have hlen' : (done ++ q :: Q').length ≤ stages.length :=
        (hA.subperm hsub).length_le
      have hfuel' : stages.length - (done ++ q :: Q').length < n := by
        simp only [List.length_append, List.length_cons] at *
        omega
      have ihres := IH (done ++ q :: Q') P.2 P.1 hA' hsub' hB' hC' hfuel'
      obtain ⟨R1, R2, R3, R4, R5, R6⟩ := ihres
      rw [hrun]
      simp only [List.flatten_cons]
      have hassoc : ∀ x : List Stage,
          done ++ ((q :: Q') ++ x) = (done ++ q :: Q') ++ x := by
        intro x
        rw [List.append_assoc]
      refine ⟨?_, ?_, ?_, ?_, ?_, ?_⟩
      · rw [hassoc]
        exact R1
      · intro s hs
        rcases List.mem_append.mp hs with hs | hs
        · exact hsub s (List.mem_append.mpr (Or.inr hs))
        · exact R2 s hs
      · simp only [List.length_append]
        omega
      · intro t
        rw [hassoc]
        exact R4 t
      · intro t
        rw [hassoc]
        exact R5 t
      · intro j L hL
        cases j with
        | zero =>
          rw [List.get?_cons_zero] at hL
          rcases Option.some_inj.mp hL with rfl
          intro t ht s hts
          simp only [List.take_zero, List.flatten_nil, List.append_nil]
          have htQ : t ∈ done ++ q :: Q' := List.mem_append.mpr (Or.inr ht)
          have hdegt : deg t = 0 := ((hC t).mp htQ).2
          have hdone : (done.flatMap adj).count t = indeg t := by
            have := hB t
            omega
          have hs_stages : s ∈ stages := by
            by_contra hs0
            rw [hadj0 s hs0] at hts
            simp at hts
          by_contra hsdone
          have hnd_ds : (done ++ [s]).Nodup := by
            refine (hA.of_append_left).append (List.nodup_singleton s) ?_
            intro x hx hx0
            rcases List.mem_singleton.mp hx0 with rfl
            exact hsdone hx
          have hsub_ds : ∀ x, x ∈ done ++ [s] → x ∈ stages := by
            intro x hx
            rcases List.mem_append.mp hx with hx | hx
            · exact hsub x (List.mem_append.mpr (Or.inl hx))
            · rcases List.mem_singleton.mp hx with rfl
              exact hs_stages
          have hle := count_flatMap_le adj t hnd_ds hsub_ds
          rw [List.flatMap_append, List.count_append] at hle
          have hpos : 0 < ((([s] : List Stage).flatMap adj).count t) := by
            simp only [List.flatMap_cons, List.flatMap_nil, List.append_nil]
            exact List.count_pos_iff.mpr hts
          have := hindeg t
          omega
        | succ j' =>
          rw [List.get?_cons_succ] at hL
          intro t ht s hts
          have := R6 j' L hL t ht s hts
          rw [List.take_succ_cons, List.flatten_cons, hassoc]
          exact this

/-! ## Kahn run on well-formed graphs -/

theorem kahnRun_spec (g : StageDependencyGraph) (hWF : WFGraph g) :
    ((kahnRun g).1.flatten.Nodup ∧
     (∀ s, s ∈ (kahnRun g).1.flatten → s ∈ g.stages) ∧
     (kahnRun g).2.1 = (kahnRun g).1.flatten.length ∧
     (∀ t, t ∈ (kahnRun g).1.flatten ↔ (t ∈ g.stages ∧ (kahnRun g).2.2 t = 0)) ∧
     (∀ t, (kahnRun g).2.2 t
        + (((kahnRun g).1.flatten.flatMap g.adjacency).count t) = g.in_degree t) ∧
     (∀ j L, (kahnRun g).1.get? j = some L →
        ∀ t ∈ L, ∀ s, t ∈ g.adjacency s → s ∈ ((kahnRun g).1.take j).flatten)) := by
  obtain ⟨hnds, hadj0, htarg, hindeg⟩ := hWF
  have h := kahn_master g.adjacency g.stages g.in_degree hnds hadj0 htarg hindeg
    (g.stages.length + 1) [] (g.stages.filter (fun s => g.in_degree s = 0)) g.in_degree
    (by simpa using hnds.filter _)
    (by intro s hs
        simp only [List.nil_append] at hs
        exact (List.mem_filter.mp hs).1)
    (by intro t; simp)
    (by intro t
        simp only [List.nil_append, List.mem_filter]
        constructor
        · rintro ⟨h1, h2⟩
          exact ⟨h1, by simpa using h2⟩
        · rintro ⟨h1, h2⟩
          exact ⟨h1, by simpa using h2⟩)
    (by omega)
  obtain ⟨R1, R2, R3, R4, R5, R6⟩ := h
  simp only [List.nil_append] at R1 R4 R5 R6
  exact ⟨R1, R2, R3, R4, R5, R6⟩

/-- On a `from_stages` graph every registered stage is eventually processed:
an unprocessed stage would have an unprocessed in-neighbour of strictly
smaller rank, and ranks are well-founded. -/
theorem from_stages_processed (S : List Stage) :
    ∀ t ∈ (from_stages S).stages, t ∈ (kahnRun (from_stages S)).1.flatten := by
  obtain ⟨R1, R2, R3, R4, R5, R6⟩ := kahnRun_spec (from_stages S) (WF_from_stages S)
  have hnds := from_stages_stages_nodup S
  have hindeg := (WF_from_stages S).2.2.2
  have key : ∀ r : Nat, ∀ t : Stage, t.rank < r → t ∈ (from_stages S).stages →
      t ∈ (kahnRun (from_stages S)).1.flatten := by
    intro r
    induction r with
    | zero => intro t h; exact absurd h (by omega)
    | succ r ih =>
      intro t hrank hst
      by_contra htJ
      have hdeg : (kahnRun (from_stages S)).2.2 t ≠ 0 := by
        intro h0
        exact htJ ((R4 t).mpr ⟨hst, h0⟩)
      have hcnt := R5 t
      have hlt : (((kahnRun (from_stages S)).1.flatten.flatMap
            (from_stages S).adjacency).count t)
          < (((from_stages S).stages.flatMap (from_stages S).adjacency).count t) := by
        have := hindeg t
        omega
      obtain ⟨s, hs_st, hsJ, hts⟩ := exists_unprocessed_source hnds hlt
      have hrank_s : s.rank < t.rank := from_stages_edge_rank hts
      exact hsJ (ih s (by omega) hs_st)
  intro t ht
  exact key (t.rank + 1) t (by omega) ht

/-- The processed stages of a `from_stages` Kahn run are a permutation of
the registered stages. -/
theorem from_stages_flatten_perm (S : List Stage) :
    ((kahnRun (from_stages S)).1.flatten).Perm (from_stages S).stages := by
  obtain ⟨R1, R2, R3, R4, R5, R6⟩ := kahnRun_spec (from_stages S) (WF_from_stages S)
  exact (R1.subperm R2).antisymm
    ((from_stages_stages_nodup S).subperm (from_stages_processed S))

/-- `topological_sort` on a `from_stages` graph always succeeds, returning
the layers of the Kahn run. -/
theorem from_stages_sort_eq (S : List Stage) :
    (from_stages S).topological_sort = Except.ok (kahnRun (from_stages S)).1 := by
  obtain ⟨R1, R2, R3, R4, R5, R6⟩ := kahnRun_spec (from_stages S) (WF_from_stages S)
  unfold topological_sort
  rw [if_pos]
  rw [R3, (from_stages_flatten_perm S).length_eq]

end StageDependencyGraph

open StageDependencyGraph in
/-- C9: for every requested stage list over the eight built-in variants,
`topological_sort` on `from_stages` never reports a circular dependency:
the default dependency relation restricted to any subset is acyclic (every
default edge strictly increases `Stage.rank`), so the structural-failure
branch is unreachable. -/
theorem C9_from_stages_never_cyclic (S : List Stage) :
    ∃ layers, (from_stages S).topological_sort = Except.ok layers :=
  ⟨(kahnRun (from_stages S)).1, from_stages_sort_eq S⟩

theorem mem_flatten_of_get (layers : List (List Stage)) :
    ∀ (i : Nat) (hi : i < layers.length) (x : Stage),
      x ∈ layers.get ⟨i, hi⟩ → x ∈ layers.flatten := by
  intro i hi x hx
  exact List.mem_flatten.mpr ⟨layers.get ⟨i, hi⟩, List.get_mem layers i hi, hx⟩

theorem mem_flatten_take (x : Stage) :
    ∀ (layers : List (List Stage)) (j : Nat), x ∈ (layers.take j).flatten →
      ∃ (i : Nat) (hi : i < layers.length), i < j ∧ x ∈ layers.get ⟨i, hi⟩
  | [], j, h => by simp at h
  | L :: ls, 0, h => by simp at h
  | L :: ls, j + 1, h => by
    rw [List.take_succ_cons, List.flatten_cons] at h
    rcases List.mem_append.mp h with h | h
    · refine ⟨0, ?_, ?_, h⟩
      · simp
      · omega
    · obtain ⟨i, hi, hij, hmem⟩ := mem_flatten_take x ls j h
      refine ⟨i + 1, ?_, ?_, ?_⟩
      · simpa using hi
      · omega
      · simpa using hmem

theorem layers_mem_unique :
    ∀ (layers : List (List Stage)), layers.flatten.Nodup →
      ∀ (i j : Nat) (hi : i < layers.length) (hj : j < layers.length) (x : Stage),
        x ∈ layers.get ⟨i, hi⟩ → x ∈ layers.get ⟨j, hj⟩ → i = j
  | [], _, i, j, hi, hj, x => absurd hi (by simp)
  | L :: ls, hnd, i, j, hi, hj, x => by
    rw [List.flatten_cons] at hnd
    have hdisj : ∀ y, y ∈ L → y ∈ ls.flatten → False := by
      intro y h1 h2
      exact (List.disjoint_of_nodup_append hnd) h1 h2
    cases i with
    | zero =>
      cases j with
      | zero => intro _ _; rfl
      | succ j' =>
        intro hx1 hx2
        have hj' : j' < ls.length := by
          simp only [List.length_cons] at hj
          omega
        have hx2' : x ∈ ls.get ⟨j', hj'⟩ := by simpa using hx2
        have : x ∈ ls.flatten := mem_flatten_of_get ls j' hj' x hx2'
        exact (hdisj x hx1 this).elim
    | succ i' =>
      cases j with
      | zero =>
        intro hx1 hx2
        have hi' : i' < ls.length := by
          simp only [List.length_cons] at hi
          omega
        have hx1' : x ∈ ls.get ⟨i', hi'⟩ := by simpa using hx1
        have : x ∈ ls.flatten := mem_flatten_of_get ls i' hi' x hx1'
        exact (hdisj x hx2 this).elim
      | succ j' =>
        intro hx1 hx2
        have := layers_mem_unique ls (hnd.of_append_right) i' j'
          (by simpa using hi) (by simpa using hj) x
          (by simpa using hx1) (by simpa using hx2)
        omega

open StageDependencyGraph in
/-- C1: for every duplicate-free requested stage list `S`, building the
graph with `from_stages` and calling `topological_sort` succeeds; the
concatenation of the returned layers is a permutation of `S` (so each stage
appears in exactly one layer), and for every default dependency edge whose
source and target are both in `S`, the source's layer index is strictly
below the target's. -/
theorem C1_layers_sound (S : List Stage) (hS : S.Nodup) :
    ∃ layers, (from_stages S).topological_sort = Except.ok layers ∧
      (layers.flatten).Perm S ∧
      (∀ d t : Stage, d ∈ S → t ∈ S → d ∈ t.default_dependencies →
        ∀ (i j : Nat) (hi : i < layers.length) (hj : j < layers.length),
          d ∈ layers.get ⟨i, hi⟩ → t ∈ layers.get ⟨j, hj⟩ → i < j) := by
  obtain ⟨R1, R2, R3, R4, R5, R6⟩ := kahnRun_spec (from_stages S) (WF_from_stages S)
  refine ⟨(kahnRun (from_stages S)).1, from_stages_sort_eq S, ?_, ?_⟩
  · exact (from_stages_flatten_perm S).trans (from_stages_stages_perm hS)
  · intro d t hdS htS hdep i j hi hj hdi htj
    have hadj : t ∈ (from_stages S).adjacency d :=
      (from_stages_adj_mem S d t).mpr ⟨htS, hdep, hdS⟩
    have hLj : (kahnRun (from_stages S)).1.get? j
        = some ((kahnRun (from_stages S)).1.get ⟨j, hj⟩) := List.get?_eq_get hj
    have hsrc := R6 j _ hLj t htj d hadj
    obtain ⟨i', hi', hij, hmem⟩ := mem_flatten_take d _ j hsrc
    have : i = i' := layers_mem_unique _ R1 i i' hi hi' d hdi hmem
    omega

open StageDependencyGraph in
/-- C4: whenever `topological_sort` fails, the error is `CircularDependency`
carrying exactly the entire stranded set: a stage is in the carried list iff
it is registered and its in-degree never reached zero during the Kahn
iteration — equivalently, iff it is registered and missing from every
processed layer. -/
theorem C4_circular_error_carries_stranded_set (g : StageDependencyGraph)
    (hWF : WFGraph g) (T : List Stage)
    (h : g.topological_sort = Except.error (GraphError.CircularDependency T)) :
    ∀ s : Stage,
      (s ∈ T ↔ (s ∈ g.stages ∧ 0 < (kahnRun g).2.2 s)) ∧
      (s ∈ T ↔ (s ∈ g.stages ∧ s ∉ (kahnRun g).1.flatten)) := by
  obtain ⟨R1, R2, R3, R4, R5, R6⟩ := kahnRun_spec g hWF
  have hT : T = g.stages.filter (fun s => 0 < (kahnRun g).2.2 s) := by
    unfold topological_sort at h
    by_cases hif : (kahnRun g).2.1 = g.stages.length
    · rw [if_pos hif] at h
      exact absurd h (by simp)
    · rw [if_neg hif] at h
      simpa using h.symm
  subst hT
  intro s
  have hfil : s ∈ g.stages.filter (fun s => 0 < (kahnRun g).2.2 s)
      ↔ (s ∈ g.stages ∧ 0 < (kahnRun g).2.2 s) := by
    rw [List.mem_filter]
    constructor
    · rintro ⟨h1, h2⟩
      exact ⟨h1, by simpa using h2⟩
    · rintro ⟨h1, h2⟩
      exact ⟨h1, by simpa using h2⟩
  refine ⟨hfil, hfil.trans ?_⟩
  constructor
  · rintro ⟨h1, h2⟩
    refine ⟨h1, fun hmem => ?_⟩
    have := (R4 s).mp hmem
    omega
  · rintro ⟨h1, h2⟩
    refine ⟨h1, ?_⟩
    by_contra h0
    exact h2 ((R4 s).mpr ⟨h1, by omega⟩)

open StageDependencyGraph in
/-- Witness for C4: the self-loop graph (Build depending on itself) fails
with a `CircularDependency` error carrying exactly `[Build]`, the full
stranded set. -/
theorem C4_circular_error_carries_stranded_set_witness :
    WFGraph selfLoopGraph ∧
    selfLoopGraph.topological_sort
      = Except.error (GraphError.CircularDependency [Stage.Build]) ∧
    ((Stage.Build ∈ [Stage.Build]
        ↔ (Stage.Build ∈ selfLoopGraph.stages ∧ 0 < (kahnRun selfLoopGraph).2.2 Stage.Build)) ∧
     (Stage.Build ∈ [Stage.Build]
        ↔ (Stage.Build ∈ selfLoopGraph.stages ∧ Stage.Build ∉ (kahnRun selfLoopGraph).1.flatten))) :=
  ⟨by decide, rfl,
   C4_circular_error_carries_stranded_set selfLoopGraph (by decide) [Stage.Build]
     rfl Stage.Build⟩

open StageDependencyGraph in
/-- Witness for C1: the classic three-stage pipeline. -/
theorem C1_layers_sound_witness :
    ([Stage.Configure, Stage.Build, Stage.Install] : List Stage).Nodup ∧
    (∃ layers, (from_stages [Stage.Configure, Stage.Build, Stage.Install]).topological_sort
        = Except.ok layers ∧
      (layers.flatten).Perm [Stage.Configure, Stage.Build, Stage.Install] ∧
      (∀ d t : Stage, d ∈ [Stage.Configure, Stage.Build, Stage.Install] →
        t ∈ [Stage.Configure, Stage.Build, Stage.Install] → d ∈ t.default_dependencies →
        ∀ (i j : Nat) (hi : i < layers.length) (hj : j < layers.length),
          d ∈ layers.get ⟨i, hi⟩ → t ∈ layers.get ⟨j, hj⟩ → i < j)) :=
  ⟨by decide, C1_layers_sound [Stage.Configure, Stage.Build, Stage.Install] (by decide)⟩

/-! ## Stage-runner layer lemmas -/

theorem Stage.mem_all (s : Stage) : s ∈ Stage.all := by
  cases s <;> simp [Stage.all]

theorem anyFailedResults_of {st : RunnerState} {s0 : Stage} {e : String} {d n : Nat}
    (h : st.results s0 = some (StageResult.Failed e d n)) :
    anyFailedResults st = true := by
  unfold anyFailedResults
  rw [List.any_eq_true]
  refine ⟨s0, Stage.mem_all s0, ?_⟩
  rw [h]

theorem markLayerSkipped_spec :
    ∀ (layer : List Stage) (st : RunnerState) (acc : Stage → Option StageResult),
      (∀ x, (markLayerSkipped st acc layer).1.results x
        = if x ∈ layer then some (StageResult.Skipped "Previous stage failed")
          else st.results x) ∧
      (∀ x, (markLayerSkipped st acc layer).1.statuses x
        = if x ∈ layer then some StageStatus.Skipped else st.statuses x) ∧
      (∀ x, (markLayerSkipped st acc layer).2 x
        = if x ∈ layer then some (StageResult.Skipped "Previous stage failed")
          else acc x) ∧
      (markLayerSkipped st acc layer).1.genCalls = st.genCalls ∧
      (markLayerSkipped st acc layer).1.spawned = st.spawned
  | [], st, acc => by
    refine ⟨?_, ?_, ?_, rfl, rfl⟩ <;> intro x <;> simp [markLayerSkipped]
  | s :: rest, st, acc => by
    obtain ⟨ih1, ih2, ih3, ih4, ih5⟩ := markLayerSkipped_spec rest
      (setStatus (setResult st s (StageResult.Skipped "Previous stage failed")) s
        StageStatus.Skipped)
      (fun x => if x = s then some (StageResult.Skipped "Previous stage failed") else acc x)
    refine ⟨?_, ?_, ?_, ih4, ih5⟩
    · intro x
      rw [show (markLayerSkipped st acc (s :: rest)) = markLayerSkipped _ _ rest from rfl,
        ih1 x]
      by_cases hr : x ∈ rest
      · simp [hr, setStatus, setResult]
      · by_cases hs : x = s
        · subst hs
          simp [hr, setStatus, setResult]
        · simp [hr, hs, setStatus, setResult]
    · intro x
      rw [show (markLayerSkipped st acc (s :: rest)) = markLayerSkipped _ _ rest from rfl,
        ih2 x]
      by_cases hr : x ∈ rest
      · simp [hr, setStatus, setResult]
      · by_cases hs : x = s
        · subst hs
          simp [hr, setStatus, setResult]
        · simp [hr, hs, setStatus, setResult]
    · intro x
      rw [show (markLayerSkipped st acc (s :: rest)) = markLayerSkipped _ _ rest from rfl,
        ih3 x]
      by_cases hr : x ∈ rest
      · simp [hr]
      · by_cases hs : x = s
        · subst hs
          simp [hr]
        · simp [hr, hs]

/-- Once a Failed result is on record for a stage outside the remaining
layers, every remaining layer is skip-marked wholesale: each of its stages
receives `Skipped("Previous stage failed")` in the runner results, status
Skipped, the same entry in `all_results`, and neither the step generator
nor any process is ever invoked again. -/
theorem execLayers_skip_all (env : Env) :
    ∀ (layers : List (List Stage)) (st : RunnerState) (acc : Stage → Option StageResult)
      (s0 : Stage) (e : String) (d n : Nat),
      st.results s0 = some (StageResult.Failed e d n) → s0 ∉ layers.flatten →
      (∀ x, (execLayers env st acc layers).1.results x
        = if x ∈ layers.flatten
          then some (StageResult.Skipped "Previous stage failed") else st.results x) ∧
      (∀ x, (execLayers env st acc layers).1.statuses x
        = if x ∈ layers.flatten then some StageStatus.Skipped else st.statuses x) ∧
      (∀ x, (execLayers env st acc layers).2.1 x
        = if x ∈ layers.flatten
          then some (StageResult.Skipped "Previous stage failed") else acc x) ∧
      (execLayers env st acc layers).1.genCalls = st.genCalls ∧
      (execLayers env st acc layers).1.spawned = st.spawned ∧
      (execLayers env st acc layers).2.2 = []
  | [], st, acc, s0, e, d, n, hres, hout => by
    refine ⟨?_, ?_, ?_, rfl, rfl, rfl⟩ <;> intro x <;> simp [execLayers]
  | layer :: rest, st, acc, s0, e, d, n, hres, hout => by
    have hfail : anyFailedResults st = true := anyFailedResults_of hres
    have hstep : execLayers env st acc (layer :: rest)
        = execLayers env (markLayerSkipped st acc layer).1
            (markLayerSkipped st acc layer).2 rest := by
      simp only [execLayers, hfail, if_true]
    obtain ⟨M1, M2, M3, M4, M5⟩ := markLayerSkipped_spec layer st acc
    rw [List.flatten_cons] at hout
    have houtL : s0 ∉ layer := fun h => hout (List.mem_append.mpr (Or.inl h))
    have houtR : s0 ∉ rest.flatten := fun h => hout (List.mem_append.mpr (Or.inr h))
    have hres1 : (markLayerSkipped st acc layer).1.results s0
        = some (StageResult.Failed e d n) := by
      rw [M1 s0, if_neg houtL]
      exact hres
    obtain ⟨I1, I2, I3, I4, I5, I6⟩ := execLayers_skip_all env rest
      (markLayerSkipped st acc layer).1 (markLayerSkipped st acc layer).2
      s0 e d n hres1 houtR
    rw [hstep]
    refine ⟨?_, ?_, ?_, ?_, ?_, I6⟩
    · intro x
      rw [I1 x, List.flatten_cons]
      by_cases hr : x ∈ rest.flatten
      · simp [hr]
      · rw [if_neg hr, M1 x]
        by_cases hl : x ∈ layer
        · simp [hl]
        · simp [hl, hr]
    · intro x
      rw [I2 x, List.flatten_cons]
      by_cases hr : x ∈ rest.flatten
      · simp [hr]
      · rw [if_neg hr, M2 x]
        by_cases hl : x ∈ layer
        · simp [hl]
        · simp [hl, hr]
    · intro x
      rw [I3 x, List.flatten_cons]
      by_cases hr : x ∈ rest.flatten
      · simp [hr]
      · rw [if_neg hr, M3 x]
        by_cases hl : x ∈ layer
        · simp [hl]
        · simp [hl, hr]
    · rw [I4, M4]
    · rw [I5, M5]

/-- C2: in `execute_with_dependencies`, if before a layer some
already-recorded result (for a stage outside the remaining layers, i.e. one
processed earlier) is Failed, then every stage of this layer and of all
subsequent layers ends with result `Skipped("Previous stage failed")` and
status Skipped — and for none of them is the step generator consulted or a
process spawned (the ghost `genCalls` and `spawned` instrumentation is
untouched). -/
theorem C2_failfast_skip_propagation (env : Env) (layers : List (List Stage))
    (st : RunnerState) (acc : Stage → Option StageResult)
    (s0 : Stage) (e : String) (d n : Nat)
    (hres : st.results s0 = some (StageResult.Failed e d n))
    (hout : s0 ∉ layers.flatten) :
    (∀ x ∈ layers.flatten,
      (execLayers env st acc layers).1.results x
        = some (StageResult.Skipped "Previous stage failed") ∧
      (execLayers env st acc layers).1.statuses x = some StageStatus.Skipped ∧
      (execLayers env st acc layers).2.1 x
        = some (StageResult.Skipped "Previous stage failed")) ∧
    (execLayers env st acc layers).1.genCalls = st.genCalls ∧
    (execLayers env st acc layers).1.spawned = st.spawned := by
  obtain ⟨I1, I2, I3, I4, I5, _⟩ := execLayers_skip_all env layers st acc s0 e d n hres hout
  refine ⟨?_, I4, I5⟩
  intro x hx
  rw [I1 x, I2 x, I3 x, if_pos hx, if_pos hx, if_pos hx]
  exact ⟨rfl, rfl, rfl⟩

/-- Witness for C2: with a Failed result recorded for Build, the layers
`[[Test], [PostBuild]]` are fully skip-marked and the generator is never
called. -/
theorem C2_failfast_skip_propagation_witness :
    (stateAfterBuildFailure.results Stage.Build
      = some (StageResult.Failed "Exit code 1" 3 1)) ∧
    (Stage.Build ∉ ([[Stage.Test], [Stage.PostBuild]] : List (List Stage)).flatten) ∧
    ((∀ x ∈ ([[Stage.Test], [Stage.PostBuild]] : List (List Stage)).flatten,
      (execLayers envPrevalFails stateAfterBuildFailure (fun _ => none)
          [[Stage.Test], [Stage.PostBuild]]).1.results x
        = some (StageResult.Skipped "Previous stage failed") ∧
      (execLayers envPrevalFails stateAfterBuildFailure (fun _ => none)
          [[Stage.Test], [Stage.PostBuild]]).1.statuses x = some StageStatus.Skipped ∧
      (execLayers envPrevalFails stateAfterBuildFailure (fun _ => none)
          [[Stage.Test], [Stage.PostBuild]]).2.1 x
        = some (StageResult.Skipped "Previous stage failed")) ∧
    (execLayers envPrevalFails stateAfterBuildFailure (fun _ => none)
        [[Stage.Test], [Stage.PostBuild]]).1.genCalls
      = stateAfterBuildFailure.genCalls ∧
    (execLayers envPrevalFails stateAfterBuildFailure (fun _ => none)
        [[Stage.Test], [Stage.PostBuild]]).1.spawned
      = stateAfterBuildFailure.spawned) :=
  ⟨rfl, by decide,
   C2_failfast_skip_propagation envPrevalFails [[Stage.Test], [Stage.PostBuild]]
     stateAfterBuildFailure (fun _ => none) Stage.Build "Exit code 1" 3 1 rfl (by decide)⟩

/-- The sequential layer loop executes a prefix of the layer and abandons
the suffix after the first Failed stage: the abandoned stages (third
component) are exactly the unexecuted suffix; stages outside the executed
prefix keep their previous `all_results` entry, and executed stages hold
some result. -/
theorem runSeq_spec (env : Env) :
    ∀ (layer : List Stage) (st : RunnerState) (acc : Stage → Option StageResult),
      ∃ pre, layer = pre ++ (runSeq env st acc layer).2.2 ∧
        (∀ x, x ∉ pre → (runSeq env st acc layer).2.1 x = acc x) ∧
        (∀ x ∈ pre, ((runSeq env st acc layer).2.1 x).isSome = true)
  | [], st, acc => ⟨[], rfl, fun x _ => rfl, fun x hx => absurd hx (by simp)⟩
  | s :: rest, st, acc => by
    rcases hp : (execute_stage env st s).2 with du_se | er_du_se | re
    all_goals first
    | (refine ⟨[s], by simp [runSeq, hp], ?_, ?_⟩
       · intro x hx
         have hxs : ¬x = s := by simpa using hx
         simp [runSeq, hp, hxs]
       · intro x hx
         rcases List.mem_singleton.mp hx with rfl
         simp [runSeq, hp])
    | (obtain ⟨pre, heq, hout, hin⟩ := runSeq_spec env rest (execute_stage env st s).1
         (fun x => if x = s then some (execute_stage env st s).2 else acc x)
       refine ⟨s :: pre, ?_, ?_, ?_⟩
       · simpa [runSeq, hp] using heq
       · intro x hx
         have hxs : ¬x = s := fun h => hx (h ▸ List.mem_cons_self s pre)
         have hxp : x ∉ pre := fun h => hx (List.mem_cons_of_mem s h)
         have := hout x hxp
         simp only [runSeq, hp] at *
         rw [this]
         simp [hxs]
       · intro x hx
         rcases List.mem_cons.mp hx with rfl | hx2
         · by_cases hxp : x ∈ pre
           · have := hin x hxp
             simpa [runSeq, hp] using this
           · have := hout x hxp
             simp only [runSeq, hp] at *
             rw [this]
             simp
         · have := hin x hx2
           simpa [runSeq, hp] using this)

/-- Every stage of a concurrently executed layer receives some result;
stages outside the layer keep their previous entry. -/
theorem execConcurrent_spec (env : Env) :
    ∀ (layer : List Stage) (st : RunnerState) (acc : Stage → Option StageResult),
      (∀ x, x ∉ layer → (execConcurrent env st acc layer).2 x = acc x) ∧
      (∀ x ∈ layer, ((execConcurrent env st acc layer).2 x).isSome = true)
  | [], st, acc => ⟨fun x _ => rfl, fun x hx => absurd hx (by simp)⟩
  | s :: rest, st, acc => by
    obtain ⟨hout, hin⟩ := execConcurrent_spec env rest (execute_stage env st s).1
      (fun x => if x = s then some (execute_stage env st s).2 else acc x)
    refine ⟨?_, ?_⟩
    · intro x hx
      have hxs : ¬x = s := fun h => hx (h ▸ List.mem_cons_self s rest)
      have hxr : x ∉ rest := fun h => hx (List.mem_cons_of_mem s h)
      have := hout x hxr
      simp only [execConcurrent] at *
      rw [this]
      simp [hxs]
    · intro x hx
      rcases List.mem_cons.mp hx with rfl | hx2
      · by_cases hxr : x ∈ rest
        · have := hin x hxr
          simpa [execConcurrent] using this
        · have := hout x hxr
          simp only [execConcurrent] at *
          rw [this]
          simp
      · have := hin x hx2
        simpa [execConcurrent] using this

/-- Coverage of one run of the layer loop over disjoint layers: the
abandoned list collects stages of the processed layers; abandoned stages
keep their previous (absent) `all_results` entry; every other stage of the
layers ends with some result; entries present before stay present. -/
theorem execLayers_cover (env : Env) :
    ∀ (layers : List (List Stage)) (st : RunnerState) (acc : Stage → Option StageResult),
      layers.flatten.Nodup →
      ((∀ x ∈ (execLayers env st acc layers).2.2, x ∈ layers.flatten) ∧
       (∀ x, x ∉ layers.flatten → (execLayers env st acc layers).2.1 x = acc x) ∧
       (∀ x ∈ (execLayers env st acc layers).2.2,
         (execLayers env st acc layers).2.1 x = acc x) ∧
       (∀ x ∈ layers.flatten, x ∉ (execLayers env st acc layers).2.2 →
         ((execLayers env st acc layers).2.1 x).isSome = true) ∧
       (∀ x, (acc x).isSome = true → ((execLayers env st acc layers).2.1 x).isSome = true))
  | [], st, acc, _ => by
    refine ⟨?_, ?_, ?_, ?_, ?_⟩ <;> intro x hx <;> simp_all [execLayers]
  | layer :: rest, st, acc, hnd => by
    rw [List.flatten_cons] at hnd
    have hdisj := List.disjoint_of_nodup_append hnd
    have hndrest : rest.flatten.Nodup := hnd.of_append_right
    by_cases hf : anyFailedResults st = true
    · -- skip-marking branch
      have hstep : execLayers env st acc (layer :: rest)
          = execLayers env (markLayerSkipped st acc layer).1
              (markLayerSkipped st acc layer).2 rest := by
        simp only [execLayers, hf, if_true]
      obtain ⟨M1, M2, M3, M4, M5⟩ := markLayerSkipped_spec layer st acc
      obtain ⟨I1, I2, I3, I4, I5⟩ := execLayers_cover env rest
        (markLayerSkipped st acc layer).1 (markLayerSkipped st acc layer).2 hndrest
      rw [hstep, List.flatten_cons]
      refine ⟨?_, ?_, ?_, ?_, ?_⟩
      · intro x hx
        exact List.mem_append.mpr (Or.inr (I1 x hx))
      · intro x hx
        rw [I2 x (fun h => hx (List.mem_append.mpr (Or.inr h))), M3 x,
          if_neg (fun h => hx (List.mem_append.mpr (Or.inl h)))]
      · intro x hx
        have hxr : x ∈ rest.flatten := I1 x hx
        have hxl : x ∉ layer := fun h => hdisj h hxr
        rw [I3 x hx, M3 x, if_neg hxl]
      · intro x hx hrem
        rcases List.mem_append.mp hx with hx | hx
        · refine I5 x ?_
          rw [M3 x, if_pos hx]
          rfl
        · exact I4 x hx hrem
      · intro x hx
        refine I5 x ?_
        rw [M3 x]
        by_cases hl : x ∈ layer
        · rw [if_pos hl]
          rfl
        · rw [if_neg hl]
          exact hx
    · -- execution branches
      by_cases hc : (layer.all fun s => s.metadata.can_run_concurrent) = true ∧ 1 < layer.length
      · -- concurrent branch
        have hstep : execLayers env st acc (layer :: rest)
            = execLayers env (execConcurrent env st acc layer).1
                (execConcurrent env st acc layer).2 rest := by
          simp only [execLayers, hf, if_false, Bool.false_eq_true]
          rw [if_pos hc]
        obtain ⟨C1, C2⟩ := execConcurrent_spec env layer st acc
        obtain ⟨I1, I2, I3, I4, I5⟩ := execLayers_cover env rest
          (execConcurrent env st acc layer).1 (execConcurrent env st acc layer).2 hndrest
        rw [hstep, List.flatten_cons]
        refine ⟨?_, ?_, ?_, ?_, ?_⟩
        · intro x hx
          exact List.mem_append.mpr (Or.inr (I1 x hx))
        · intro x hx
          rw [I2 x (fun h => hx (List.mem_append.mpr (Or.inr h))),
            C1 x (fun h => hx (List.mem_append.mpr (Or.inl h)))]
        · intro x hx
          have hxr : x ∈ rest.flatten := I1 x hx
          have hxl : x ∉ layer := fun h => hdisj h hxr
          rw [I3 x hx, C1 x hxl]
        · intro x hx hrem
          rcases List.mem_append.mp hx with hx | hx
          · exact I5 x (C2 x hx)
          · exact I4 x hx hrem
        · intro x hx
          refine I5 x ?_
          by_cases hl : x ∈ layer
          · exact C2 x hl
          · rw [C1 x hl]
            exact hx
      · -- sequential branch
        have hstep : execLayers env st acc (layer :: rest)
            = ((execLayers env (runSeq env st acc layer).1
                  (runSeq env st acc layer).2.1 rest).1,
               (execLayers env (runSeq env st acc layer).1
                  (runSeq env st acc layer).2.1 rest).2.1,
               (runSeq env st acc layer).2.2
                 ++ (execLayers env (runSeq env st acc layer).1
                      (runSeq env st acc layer).2.1 rest).2.2) := by
          simp only [execLayers, hf, if_false, Bool.false_eq_true]
          rw [if_neg hc]
        obtain ⟨pre, heq, Sout, Sin⟩ := runSeq_spec env layer st acc
        obtain ⟨I1, I2, I3, I4, I5⟩ := execLayers_cover env rest
          (runSeq env st acc layer).1 (runSeq env st acc layer).2.1 hndrest
        have hndlayer : layer.Nodup := hnd.of_append_left
        have hpre_disj : ∀ x, x ∈ (runSeq env st acc layer).2.2 → x ∉ pre := by
          intro x hx hpre
          rw [heq] at hndlayer
          exact (List.disjoint_of_nodup_append hndlayer) hpre hx
        have hSmono : ∀ x, (acc x).isSome = true →
            ((runSeq env st acc layer).2.1 x).isSome = true := by
          intro x hx
          by_cases hp : x ∈ pre
          · exact Sin x hp
          · rw [Sout x hp]
            exact hx
        rw [hstep, List.flatten_cons]
        refine ⟨?_, ?_, ?_, ?_, ?_⟩
        · intro x hx
          rcases List.mem_append.mp hx with hx | hx
          · refine List.mem_append.mpr (Or.inl ?_)
            rw [heq]
            exact List.mem_append.mpr (Or.inr hx)
          · exact List.mem_append.mpr (Or.inr (I1 x hx))
        · intro x hx
          have hxl : x ∉ layer := fun h => hx (List.mem_append.mpr (Or.inl h))
          have hxp : x ∉ pre := fun h => hxl (heq ▸ List.mem_append.mpr (Or.inl h))
          rw [I2 x (fun h => hx (List.mem_append.mpr (Or.inr h))), Sout x hxp]
        · intro x hx
          rcases List.mem_append.mp hx with hx | hx
          · have hxl : x ∈ layer := heq ▸ List.mem_append.mpr (Or.inr hx)
            have hxr : x ∉ rest.flatten := fun h => hdisj hxl h
            rw [I2 x hxr, Sout x (hpre_disj x hx)]
          · have hxr : x ∈ rest.flatten := I1 x hx
            have hxl : x ∉ layer := fun h => hdisj h hxr
            have hxp : x ∉ pre := fun h => hxl (heq ▸ List.mem_append.mpr (Or.inl h))
            rw [I3 x hx, Sout x hxp]
        · intro x hx hrem
          rcases List.mem_append.mp hx with hx | hx
          · rw [heq] at hx
            rcases List.mem_append.mp hx with hx | hx
            · exact I5 x (Sin x hx)
            · exact absurd (List.mem_append.mpr (Or.inl hx)) hrem
          · exact I4 x hx (fun h => hrem (List.mem_append.mpr (Or.inr h)))
        · intro x hx
          exact I5 x (hSmono x hx)

/-- Counterexample to C3 as stated: for the request
`[PreValidation, Clean]` both stages land in one layer, PreValidation is not
concurrency-eligible so the layer runs sequentially, and its failing first
stage makes the loop `break`: the run completes without error, yet the
returned result map carries no entry at all for Clean (the claim demands
exactly one terminal result for it) — Clean is exactly the abandoned
suffix. -/
theorem C3_counterexample_clean_gets_no_result :
    Stage.Clean ∈ ([Stage.PreValidation, Stage.Clean] : List Stage) ∧
    (execute_with_dependencies envPrevalFails initialState
        [Stage.PreValidation, Stage.Clean]).map
        (fun out => (out.2.1 Stage.Clean, out.2.2))
      = Except.ok (none, [Stage.Clean]) :=
  ⟨by decide, rfl⟩

open StageDependencyGraph in
/-- C3 (amended): on a completed run over a duplicate-free stage set,
a requested stage holds a result in the returned map exactly when it is not
among the abandoned stages — the stages following the first failing stage
inside a sequentially executed layer.  Those abandoned stages receive no
entry; every other requested stage receives exactly one terminal result. -/
theorem C3_every_stage_resolved_unless_abandoned (env : Env) (S : List Stage)
    (hS : S.Nodup) :
    ∀ out, execute_with_dependencies env initialState S = Except.ok out →
      ∀ s ∈ S, ((out.2.1 s).isSome = true ↔ s ∉ out.2.2) := by
  intro out hout s hsS
  obtain ⟨R1, R2, R3, R4, R5, R6⟩ := kahnRun_spec (from_stages S) (WF_from_stages S)
  have hrun : execute_with_dependencies env initialState S
      = Except.ok (execLayers env initialState (fun _ => none)
          (kahnRun (from_stages S)).1) := by
    unfold execute_with_dependencies
    rw [from_stages_sort_eq S]
  rw [hrun] at hout
  rcases Except.ok.inj hout with rfl
  obtain ⟨V1, V2, V3, V4, V5⟩ := execLayers_cover env
    (kahnRun (from_stages S)).1 initialState (fun _ => none) R1
  have hsJ : s ∈ (kahnRun (from_stages S)).1.flatten :=
    ((from_stages_flatten_perm S).trans (from_stages_stages_perm hS)).mem_iff.mpr hsS
  constructor
  · intro hsome hrem
    rw [V3 s hrem] at hsome
    simp [initialState] at hsome
  · intro hrem
    exact V4 s hsJ hrem

open StageDependencyGraph in
/-- Witness for C3 (amended): the run of the counterexample input — Clean
is abandoned and absent from the map, PreValidation is resolved. -/
theorem C3_every_stage_resolved_unless_abandoned_witness :
    ([Stage.PreValidation, Stage.Clean] : List Stage).Nodup ∧
    (∀ s ∈ ([Stage.PreValidation, Stage.Clean] : List Stage),
      (((execLayers envPrevalFails initialState (fun _ => none)
          (kahnRun (from_stages [Stage.PreValidation, Stage.Clean])).1).2.1 s).isSome = true
        ↔ s ∉ (execLayers envPrevalFails initialState (fun _ => none)
            (kahnRun (from_stages [Stage.PreValidation, Stage.Clean])).1).2.2)) :=
  ⟨by decide,
   C3_every_stage_resolved_unless_abandoned envPrevalFails
     [Stage.PreValidation, Stage.Clean] (by decide) _ rfl⟩
